import Mathlib

/-!
Verification of the nested-set (MPTT) tree-management core of
`mptt/managers.py`: gap management (`_manage_space`, `_close_gap`,
`_create_space`, `_create_tree_space`), the four structural move cases,
insertion, full and partial rebuild from parent pointers, the bulk tree
builder, and the delayed-update tracking scope.

The database table is modelled as a `List Node`; a row carries the
primary key, the parent pointer (a primary key), the nested-set interval
`lft`/`rght`, the `level`, the `tree_id`, and the caller-declared
order-insertion sort key.  A primary key of `0` models Python's falsy
"no pk yet" (an unsaved row).  SQL bulk updates become `List.map` over
the rows with the same simultaneous CASE semantics as the queries in the
source; Python exceptions become the `TreeError` sum type (`ValueError`
for a bad position token is `invalidPosition`, the `RuntimeError` of
`partial_rebuild` is `corruptTree`, the `ValueError` for an existing
primary key is `duplicatePk`, a Python `RecursionError` from a cyclic or
duplicated parent structure is `recursionError`, `getattr` on `None` is
`attributeError`).
-/

namespace Mptt

/-- A row of the tree table: `mptt` fields of one node. -/
structure Node where
  pk : Nat
  parent : Option Nat
  lft : Int
  rght : Int
  level : Int
  tree_id : Int
  sort_key : Nat
deriving DecidableEq, Repr

/-- The exceptions the core raises (`InvalidMove`, the `ValueError` raised on
an unrecognized position token, the `RuntimeError` of `partial_rebuild` on a
multi-root tree — the spec's `CorruptTreeError` —, the `ValueError` of
`insert_node` on an already-saved pk, a Python `RecursionError`, a Python
`AttributeError`, and a generic exception raised by the body of a tracking
scope). -/
inductive TreeError where
  | invalidMove
  | invalidPosition
  | corruptTree
  | duplicatePk
  | recursionError
  | attributeError
  | bodyError
deriving DecidableEq, Repr

/-- Manager-level state: the table, whether an update-tracking scope is
active, and the tree ids recorded as dirty while tracking. -/
structure MpttState where
  db : List Node
  tracking : Bool
  dirty : List Int
deriving DecidableEq, Repr

/-- `MPTTModel.is_root_node`: a node with no parent. -/
def is_root_node (n : Node) : Bool := n.parent.isNone

/-- `MPTTModel.is_child_node`: a node with a parent. -/
def is_child_node (n : Node) : Bool := n.parent.isSome

/-- Modelled from the spec: `get_descendant_count` of the model class is not
in the source under review; the spec's invariant `right - left` odd `=
2 * descendants + 1` gives the count as `(right - left - 1) / 2`. -/
def get_descendant_count (n : Node) : Int := (n.rght - n.lft - 1) / 2

/-- The bulk UPDATE of `_manage_space` on the rows of one tree: rows of
`tree_id` matching with `left > target` get `left + size`, rows with
`right > target` get `right + size` (the WHERE clause restricts to rows of
the tree satisfying `left > target OR right > target`). -/
def manageSpaceDb (size target : Int) (tree_id : Int) (db : List Node) : List Node :=
  db.map fun n =>
    if n.tree_id = tree_id ∧ (target < n.lft ∨ target < n.rght) then
      { n with lft := if target < n.lft then n.lft + size else n.lft,
               rght := if target < n.rght then n.rght + size else n.rght }
    else n

/-- Modelled from the spec: the tracker of the model class
(`_mptt_track_tree_modified`) is not in the source under review; it records
the tree id of every tree touched by a would-be space operation, each
distinct id once. -/
def _mptt_track_tree_modified (tree_id : Int) (st : MpttState) : MpttState :=
  { st with dirty := if st.dirty.contains tree_id then st.dirty else st.dirty ++ [tree_id] }

/-- `TreeManager._manage_space`: while a tracking scope is active the touched
tree is only recorded; otherwise the space UPDATE runs against the table. -/
def _manage_space (size target : Int) (tree_id : Int) (st : MpttState) : MpttState :=
  if st.tracking then _mptt_track_tree_modified tree_id st
  else { st with db := manageSpaceDb size target tree_id st.db }

/-- `TreeManager._create_space`. -/
def _create_space (size target : Int) (tree_id : Int) (st : MpttState) : MpttState :=
  _manage_space size target tree_id st

/-- `TreeManager._close_gap`: closes a gap of `size` after `target`, i.e.
`_manage_space` with the negated size. -/
def _close_gap (size target : Int) (tree_id : Int) (st : MpttState) : MpttState :=
  _manage_space (-size) target tree_id st

/-- `TreeManager._create_tree_space`: increments the tree id of every tree
whose id exceeds `target_tree_id` by `num_trees`. -/
def _create_tree_space (target_tree_id : Int) (num_trees : Int) (db : List Node) : List Node :=
  db.map fun n =>
    if target_tree_id < n.tree_id then { n with tree_id := n.tree_id + num_trees } else n

/-- `TreeManager._get_next_tree_id`: under sequential root ordering, the
largest used tree id plus one (`Max` aggregate, `None` read as 0); otherwise
the field default generator supplies a fresh key (`genDefault`). -/
def _get_next_tree_id (root_ordering : Bool) (genDefault : Int) (db : List Node) : Int :=
  if root_ordering then (db.foldl (fun m n => max m n.tree_id) 0) + 1
  else genDefault

/-- `TreeManager._calculate_inter_tree_move_values`: the derived quantities
`(space_target, level_change, left_right_change, new parent pk, right_shift)`
for moving `node` relative to `target` at `position`; an unrecognized
position raises (`ValueError` in the source, the spec's `InvalidPosition`). -/
def _calculate_inter_tree_move_values (node target : Node) (position : String) :
    Except TreeError (Int × Int × Int × Option Nat × Int) :=
  let left := node.lft
  let level := node.level
  let target_left := target.lft
  let target_right := target.rght
  let target_level := target.level
  if position = "last-child" ∨ position = "first-child" then
    let space_target := if position = "last-child" then target_right - 1 else target_left
    let level_change := level - target_level - 1
    let parent := some target.pk
    let left_right_change := left - space_target - 1
    let right_shift := if parent.isSome then 2 * (get_descendant_count node + 1) else 0
    .ok (space_target, level_change, left_right_change, parent, right_shift)
  else if position = "left" ∨ position = "right" then
    let space_target := if position = "left" then target_left - 1 else target_right
    let level_change := level - target_level
    let parent := target.parent
    let left_right_change := left - space_target - 1
    let right_shift := if parent.isSome then 2 * (get_descendant_count node + 1) else 0
    .ok (space_target, level_change, left_right_change, parent, right_shift)
  else .error .invalidPosition

/-- The single atomic UPDATE of `TreeManager._inter_tree_move_and_close_gap`:
over the rows of `node`'s current tree, the subtree rows (`left` within
`[node.lft, node.rght]`) get their level, tree id and interval moved, and the
rows straddling the vacated gap get shifted by the gap size; all CASE
conditions read the old row values simultaneously. -/
def _inter_tree_move_and_close_gap (node : Node) (level_change left_right_change : Int)
    (new_tree_id : Int) (db : List Node) : List Node :=
  let left := node.lft
  let right := node.rght
  let gap_size := right - left + 1
  let gap_target_left := left - 1
  let current_tree_id := node.tree_id
  db.map fun n =>
    if n.tree_id = current_tree_id then
      { n with
        level := if left ≤ n.lft ∧ n.lft ≤ right then n.level - level_change else n.level,
        tree_id := if left ≤ n.lft ∧ n.lft ≤ right then new_tree_id else n.tree_id,
        lft := if left ≤ n.lft ∧ n.lft ≤ right then n.lft - left_right_change
               else if gap_target_left < n.lft then n.lft - gap_size else n.lft,
        rght := if left ≤ n.rght ∧ n.rght ≤ right then n.rght - left_right_change
                else if gap_target_left < n.rght then n.rght - gap_size else n.rght }
    else n

/-- `TreeManager._make_child_root_node`: removes `node` from its tree making
it the root of a new tree (a fresh tree id when none is supplied), closing
the gap it leaves; returns the updated table and the updated in-memory node. -/
def _make_child_root_node (db : List Node) (node : Node) (new_tree_id : Option Int)
    (root_ordering : Bool) (genDefault : Int) : List Node × Node :=
  let left := node.lft
  let right := node.rght
  let level := node.level
  let new_tree_id := match new_tree_id with
    | some t => t
    | none => _get_next_tree_id root_ordering genDefault db
  let left_right_change := left - 1
  let db := _inter_tree_move_and_close_gap node level left_right_change new_tree_id db
  let node' := { node with
                 lft := left - left_right_change,
                 rght := right - left_right_change,
                 level := 0, tree_id := new_tree_id, parent := none }
  (db, node')

/-- Modelled from the spec: `get_previous_sibling` of the model class, for a
root node, is not in the source under review; among roots, ordered by tree
id, the previous sibling is the root with the greatest tree id below the
node's. -/
def get_previous_root_sibling (db : List Node) (target : Node) : Option Node :=
  (db.filter fun n => is_root_node n ∧ n.tree_id < target.tree_id).foldl
    (fun acc n => match acc with
      | none => some n
      | some m => if m.tree_id < n.tree_id then some n else some m) none

/-- Modelled from the spec: `get_next_sibling` of the model class, for a root
node; among roots, ordered by tree id, the next sibling is the root with the
least tree id above the node's. -/
def get_next_root_sibling (db : List Node) (target : Node) : Option Node :=
  (db.filter fun n => is_root_node n ∧ target.tree_id < n.tree_id).foldl
    (fun acc n => match acc with
      | none => some n
      | some m => if n.tree_id < m.tree_id then some n else some m) none

/-- The root-reordering UPDATE of `TreeManager._make_sibling_of_root_node`:
within `[lower_bound, upper_bound]` of tree ids, the moved tree gets
`new_tree_id` and every other tree shifts by `shift`. -/
def rootSiblingShuffle (tree_id new_tree_id shift : Int) (lower_bound upper_bound : Int)
    (db : List Node) : List Node :=
  db.map fun n =>
    if lower_bound ≤ n.tree_id ∧ n.tree_id ≤ upper_bound then
      if n.tree_id = tree_id then { n with tree_id := new_tree_id }
      else { n with tree_id := n.tree_id + shift }
    else n

/-- `TreeManager._make_sibling_of_root_node`: moving a node to be a
left/right sibling of a root.  A child node first gets a fresh tree id slot
and becomes a root; a root node shuffles tree ids, with the explicit no-op
check against its current neighbour. -/
def _make_sibling_of_root_node (db : List Node) (node target : Node) (position : String)
    (root_ordering : Bool) (genDefault : Int) : Except TreeError (List Node × Node) :=
  if node.pk = target.pk then .error .invalidMove
  else
    let tree_id := node.tree_id
    let target_tree_id := target.tree_id
    if is_child_node node then
      if position = "left" ∨ position = "right" then
        let space_target := if position = "left" then target_tree_id - 1 else target_tree_id
        let new_tree_id := if position = "left" then target_tree_id else target_tree_id + 1
        let db := _create_tree_space space_target 1 db
        let node := if space_target < tree_id then { node with tree_id := tree_id + 1 } else node
        .ok (_make_child_root_node db node (some new_tree_id) root_ordering genDefault)
      else .error .invalidPosition
    else
      if position = "left" then
        if tree_id < target_tree_id then
          match get_previous_root_sibling db target with
          | none => .error .attributeError
          | some left_sibling =>
            if node.pk = left_sibling.pk then .ok (db, node)
            else
              let new_tree_id := left_sibling.tree_id
              let db := rootSiblingShuffle tree_id new_tree_id (-1) tree_id new_tree_id db
              .ok (db, { node with tree_id := new_tree_id })
        else
          let new_tree_id := target_tree_id
          let db := rootSiblingShuffle tree_id new_tree_id 1 new_tree_id tree_id db
          .ok (db, { node with tree_id := new_tree_id })
      else if position = "right" then
        if tree_id < target_tree_id then
          let new_tree_id := target_tree_id
          let db := rootSiblingShuffle tree_id new_tree_id (-1) tree_id target_tree_id db
          .ok (db, { node with tree_id := new_tree_id })
        else
          match get_next_root_sibling db target with
          | none => .error .attributeError
          | some right_sibling =>
            if node.pk = right_sibling.pk then .ok (db, node)
            else
              let new_tree_id := right_sibling.tree_id
              let db := rootSiblingShuffle tree_id new_tree_id 1 new_tree_id tree_id db
              .ok (db, { node with tree_id := new_tree_id })
      else .error .invalidPosition

/-- `TreeManager._move_child_to_new_tree`: opens space of the subtree's width
in the destination tree, then runs the atomic inter-tree move-and-close-gap
UPDATE; returns the updated table and node. -/
def _move_child_to_new_tree (db : List Node) (node target : Node) (position : String) :
    Except TreeError (List Node × Node) :=
  let left := node.lft
  let right := node.rght
  let level := node.level
  let new_tree_id := target.tree_id
  match _calculate_inter_tree_move_values node target position with
  | .error e => .error e
  | .ok (space_target, level_change, left_right_change, parent, _) =>
    let tree_width := right - left + 1
    let db := manageSpaceDb tree_width space_target new_tree_id db
    let db := _inter_tree_move_and_close_gap node level_change left_right_change new_tree_id db
    let node' := { node with
                   lft := left - left_right_change,
                   rght := right - left_right_change,
                   level := level - level_change, tree_id := new_tree_id, parent := parent }
    .ok (db, node')

/-- `TreeManager._move_child_within_tree`: the single range-conditional
UPDATE over the overlap of the old and new boundary of the subtree; self and
own-descendant targets raise `InvalidMove`, an unrecognized position raises
the position error. -/
def _move_child_within_tree (db : List Node) (node target : Node) (position : String) :
    Except TreeError (List Node × Node) :=
  let left := node.lft
  let right := node.rght
  let level := node.level
  let width := right - left + 1
  let tree_id := node.tree_id
  let target_left := target.lft
  let target_right := target.rght
  let target_level := target.level
  let branch : Except TreeError (Int × Int × Int × Option Nat) :=
    if position = "last-child" ∨ position = "first-child" then
      if node.pk = target.pk then .error .invalidMove
      else if left < target_left ∧ target_left < right then .error .invalidMove
      else
        let nl_nr :=
          if position = "last-child" then
            if right < target_right then (target_right - width, target_right - 1)
            else (target_right, target_right + width - 1)
          else
            if left < target_left then (target_left - width + 1, target_left)
            else (target_left + 1, target_left + width)
        .ok (nl_nr.1, nl_nr.2, level - target_level - 1, some target.pk)
    else if position = "left" ∨ position = "right" then
      if node.pk = target.pk then .error .invalidMove
      else if left < target_left ∧ target_left < right then .error .invalidMove
      else
        let nl_nr :=
          if position = "left" then
            if left < target_left then (target_left - width, target_left - 1)
            else (target_left, target_left + width - 1)
          else
            if right < target_right then (target_right - width + 1, target_right)
            else (target_right + 1, target_right + width)
        .ok (nl_nr.1, nl_nr.2, level - target_level, target.parent)
    else .error .invalidPosition
  match branch with
  | .error e => .error e
  | .ok (new_left, new_right, level_change, parent) =>
    let left_boundary := min left new_left
    let right_boundary := max right new_right
    let left_right_change := new_left - left
    let gap_size := if 0 < left_right_change then -width else width
    let db := db.map fun n =>
      if n.tree_id = tree_id then
        { n with
          level := if left ≤ n.lft ∧ n.lft ≤ right then n.level - level_change else n.level,
          lft := if left ≤ n.lft ∧ n.lft ≤ right then n.lft + left_right_change
                 else if left_boundary ≤ n.lft ∧ n.lft ≤ right_boundary then n.lft + gap_size
                 else n.lft,
          rght := if left ≤ n.rght ∧ n.rght ≤ right then n.rght + left_right_change
                  else if left_boundary ≤ n.rght ∧ n.rght ≤ right_boundary then n.rght + gap_size
                  else n.rght }
      else n
    let node' := { node with
                   lft := new_left, rght := new_right,
                   level := level - level_change, parent := parent }
    .ok (db, node')

/-- `TreeManager._move_root_node`: grafts a whole root tree under `target` in
another tree; a self target or a target inside the node's own tree raises
`InvalidMove` before any geometry. -/
def _move_root_node (db : List Node) (node target : Node) (position : String) :
    Except TreeError (List Node × Node) :=
  let left := node.lft
  let right := node.rght
  let level := node.level
  let tree_id := node.tree_id
  let new_tree_id := target.tree_id
  let width := right - left + 1
  if node.pk = target.pk then .error .invalidMove
  else if tree_id = new_tree_id then .error .invalidMove
  else
    match _calculate_inter_tree_move_values node target position with
    | .error e => .error e
    | .ok (space_target, level_change, left_right_change, parent, _) =>
      let db := manageSpaceDb width space_target new_tree_id db
      let db := db.map fun n =>
        if left ≤ n.lft ∧ n.lft ≤ right ∧ n.tree_id = tree_id then
          { n with level := n.level - level_change, lft := n.lft - left_right_change,
                   rght := n.rght - left_right_change, tree_id := new_tree_id }
        else n
      let node' := { node with
                     lft := left - left_right_change,
                     rght := right - left_right_change,
                     level := level - level_change, tree_id := new_tree_id, parent := parent }
      .ok (db, node')

/-- `TreeManager._move_child_node`: dispatch on whether the destination tree
is the node's own. -/
def _move_child_node (db : List Node) (node target : Node) (position : String) :
    Except TreeError (List Node × Node) :=
  if node.tree_id = target.tree_id then _move_child_within_tree db node target position
  else _move_child_to_new_tree db node target position

/-- `TreeManager._move_node` outside a tracking scope: the four-way dispatch
of the move engine.  A `none` target turns a child into a root (and does
nothing for a root). -/
def _move_node (db : List Node) (node : Node) (target : Option Node) (position : String)
    (root_ordering : Bool) (genDefault : Int) : Except TreeError (List Node × Node) :=
  match target with
  | none =>
    if is_child_node node then .ok (_make_child_root_node db node none root_ordering genDefault)
    else .ok (db, node)
  | some t =>
    if is_root_node t ∧ (position = "left" ∨ position = "right") then
      _make_sibling_of_root_node db node t position root_ordering genDefault
    else if is_root_node node then _move_root_node db node t position
    else _move_child_node db node t position

/-- `Model.save` on an already-saved node: the UPDATE writes the in-memory
node's fields over the row(s) with its pk. -/
def saveNode (n : Node) (db : List Node) : List Node :=
  db.map fun m => if m.pk = n.pk then n else m

/-- `TreeManager.move_node` (outside a tracking scope): `_move_node` followed
by `node.save()`. -/
def move_node (db : List Node) (node : Node) (target : Option Node) (position : String)
    (root_ordering : Bool) (genDefault : Int) : Except TreeError (List Node × Node) :=
  match _move_node db node target position root_ordering genDefault with
  | .error e => .error e
  | .ok (db', n') => .ok (saveNode n' db', n')

/-- The body of `TreeManager.insert_node` after the existing-pk check: sets
up the tree state for a not-yet-inserted `node` relative to `target` at
`position`, opening the needed space. -/
def insert_node_main (st : MpttState) (node : Node) (target : Option Node) (position : String)
    (root_ordering : Bool) (genDefault : Int) : Except TreeError (MpttState × Node) :=
  match target with
  | none =>
    let tree_id := _get_next_tree_id root_ordering genDefault st.db
    .ok (st, { node with lft := 1, rght := 2, level := 0, tree_id := tree_id, parent := none })
  | some target =>
    if is_root_node target ∧ (position = "left" ∨ position = "right") then
      let target_tree_id := target.tree_id
      let tree_id :=
        if position = "left" then target_tree_id
        else if root_ordering then target_tree_id + 1
        else _get_next_tree_id root_ordering genDefault st.db
      let space_target :=
        if position = "left" then
          if root_ordering then target_tree_id - 1
          else _get_next_tree_id root_ordering genDefault st.db
        else target_tree_id
      let st := if root_ordering then { st with db := _create_tree_space space_target 1 st.db }
                else st
      .ok (st, { node with lft := 1, rght := 2, level := 0, tree_id := tree_id, parent := none })
    else
      let node := { node with lft := 0, level := 0 }
      match _calculate_inter_tree_move_values node target position with
      | .error e => .error e
      | .ok (space_target, level, left, parent, _) =>
        let tree_id := target.tree_id
        let st := _create_space 2 space_target tree_id st
        .ok (st, { node with
                   lft := -left, rght := -left + 1,
                   level := -level, tree_id := tree_id, parent := parent })

/-- `TreeManager.insert_node`: a node that already has a saved pk is refused
unless `allow_existing_pk`; otherwise the insertion body runs. -/
def insert_node (st : MpttState) (node : Node) (target : Option Node) (position : String)
    (allow_existing_pk : Bool) (root_ordering : Bool) (genDefault : Int) :
    Except TreeError (MpttState × Node) :=
  if node.pk ≠ 0 ∧ allow_existing_pk = false ∧ st.db.any (fun m => m.pk = node.pk) then
    .error .duplicatePk
  else insert_node_main st node target position root_ordering genDefault

/-! ## RebuildEngine -/

/-- Stable insertion into a list sorted by `le`. -/
def insSorted (le : Node → Node → Bool) (x : Node) : List Node → List Node
  | [] => [x]
  | y :: ys => if le x y then x :: y :: ys else y :: insSorted le x ys

/-- Stable insertion sort by `le`. -/
def sortNodes (le : Node → Node → Bool) : List Node → List Node
  | [] => []
  | x :: xs => insSorted le x (sortNodes le xs)

/-- The order of a queryset under `order_insertion_by`: by the declared sort
key (ties kept in table order). -/
def keyLe (a b : Node) : Bool := a.sort_key ≤ b.sort_key

/-- The base order of the tree manager's queryset: `(tree_id, left)`. -/
def baseLe (a b : Node) : Bool := a.tree_id < b.tree_id ∨ (a.tree_id = b.tree_id ∧ a.lft ≤ b.lft)

/-- Queryset ordering: the declared sort key when `order_insertion_by` is set
(`useKey`), else the manager's base `(tree_id, left)` order. -/
def querysetOrder (useKey : Bool) (l : List Node) : List Node :=
  if useKey then sortNodes keyLe l else sortNodes baseLe l

/-- One positional assignment produced by the rebuild walk. -/
structure PosAssign where
  pk : Nat
  lft : Int
  rght : Int
  level : Int
deriving DecidableEq, Repr

/-- The loop of `_rebuild_helper` over a node's children, abstracted over
the recursive call: each child consumes the cursor in turn. -/
def helperListF (f : Nat → Int → Int → Except TreeError (List PosAssign × Int)) :
    List Nat → Int → Int → Except TreeError (List PosAssign × Int)
  | [], cursor, _ => .ok ([], cursor)
  | c :: cs, cursor, level =>
    match f c cursor level with
    | .error e => .error e
    | .ok (assigns₁, cursor₁) =>
      match helperListF f cs cursor₁ level with
      | .error e => .error e
      | .ok (assigns₂, cursor₂) => .ok (assigns₁ ++ assigns₂, cursor₂)

/-- `TreeManager._rebuild_helper` at the pk level: the walk depends on the
rows only through the child map `cm` and the visited pk; it emits the
post-order list of positional assignments and returns the next cursor.
Exhausted fuel models Python's `RecursionError` on a cyclic or
pk-duplicating parent structure. -/
def helperPk (cm : Nat → List Nat) : Nat → Nat → Int → Int →
    Except TreeError (List PosAssign × Int)
  | 0, _, _, _ => .error .recursionError
  | fuel + 1, pk, left, level =>
    match helperListF (helperPk cm fuel) (cm pk) (left + 1) (level + 1) with
    | .error e => .error e
    | .ok (assigns, right) => .ok (assigns ++ [⟨pk, left, right, level⟩], right + 1)

/-- The loop of `TreeManager.rebuild` over the ordered root pks: root number
`index` gets tree id `base + index` under sequential root ordering, else a
freshly generated key `gen index`. -/
def rebuildRoots (cm : Nat → List Nat) (fuel : Nat) (seq : Bool) (gen : Nat → Int) :
    List Nat → Nat → Int → Except TreeError (List (PosAssign × Int))
  | [], _, _ => .ok []
  | p :: ps, index, base =>
    let tree_id := if seq then base + (index : Int) else gen index
    match helperPk cm fuel p 1 0 with
    | .error e => .error e
    | .ok (assigns, _) =>
      match rebuildRoots cm fuel seq gen ps (index + 1) base with
      | .error e => .error e
      | .ok rest => .ok (assigns.map (fun a => (a, tree_id)) ++ rest)

/-- One row under the final `bulk_update` of `rebuild`: the first assignment
carrying the row's pk provides its new `left`/`right`/`level`/`tree_id`. -/
def updFields (assigns : List (PosAssign × Int)) (n : Node) : Node :=
  match assigns.find? (fun a => a.1.pk = n.pk) with
  | some a => { n with lft := a.1.lft, rght := a.1.rght, level := a.1.level, tree_id := a.2 }
  | none => n

/-- The final `bulk_update` of `rebuild`: every assigned pk gets its new
`left`/`right`/`level`/`tree_id` written over its row. -/
def applyAssigns (assigns : List (PosAssign × Int)) (db : List Node) : List Node :=
  db.map (updFields assigns)

/-- The roots of the (possibly tree-filtered) population, in queryset order:
`TreeManager._get_parents`. -/
def getParents (useKey : Bool) (filt : Option Int) (db : List Node) : List Node :=
  let pop := match filt with
    | none => db
    | some t => db.filter (fun n => n.tree_id = t)
  querysetOrder useKey (pop.filter (fun n => is_root_node n))

/-- The child map of the (possibly tree-filtered) population, grouped by
parent pk in queryset order: `TreeManager._get_children`. -/
def getChildrenMap (useKey : Bool) (filt : Option Int) (db : List Node) : Nat → List Nat :=
  let pop := match filt with
    | none => db
    | some t => db.filter (fun n => n.tree_id = t)
  fun p =>
    (querysetOrder useKey (pop.filter (fun n => is_child_node n))).filterMap
      (fun n => if n.parent = some p then some n.pk else none)

/-- `TreeManager.rebuild`: renumbers `left`/`right`/`level`/`tree_id` of the
(possibly tree-filtered) population from the parent pointers alone, one
depth-first walk per root, roots numbered from `filters.get("tree_id", 1)`
under sequential ordering and freshly generated otherwise, applied as one
bulk write. -/
def rebuild (useKey seq : Bool) (gen : Nat → Int) (filt : Option Int) (db : List Node) :
    Except TreeError (List Node) :=
  let base := filt.getD 1
  let parents := getParents useKey filt db
  let cm := getChildrenMap useKey filt db
  match rebuildRoots cm (db.length + 1) seq gen (parents.map (fun n => n.pk)) 0 base with
  | .error e => .error e
  | .ok assigns => .ok (applyAssigns assigns db)

/-- `TreeManager.partial_rebuild`: counts the roots carrying `tree_id`; none
is a no-op, one delegates to the tree-filtered full rebuild, more raise
(`RuntimeError` in the source — the spec's `CorruptTreeError`). -/
def partial_rebuild (tree_id : Int) (useKey seq : Bool) (gen : Nat → Int) (db : List Node) :
    Except TreeError (List Node) :=
  let count := (db.filter (fun n => is_root_node n ∧ n.tree_id = tree_id)).length
  if count = 0 then .ok db
  else if count = 1 then rebuild useKey seq gen (some tree_id) db
  else .error .corruptTree

/-! ## BulkTreeBuilder -/

/-- The nested dictionary handed to `build_tree_nodes`: a pk, the fields
(here the order-insertion key), and the nested children.  The `parent_id`
entries of the dictionaries are taken consistent with the nesting, as in the
docstring example of the source. -/
inductive TreeData where
  | node (pk : Nat) (key : Nat) (children : List TreeData)
deriving Repr

mutual
/-- The `treeify` closure of `build_tree_nodes`: assigns `left` at the
cursor, recurses into the children, then closes `right`; emits the nodes in
the order they are appended to the stack (the node before its children). -/
def treeify (tree_id : Int) : TreeData → Option Nat → Int → Int → List Node × Int
  | .node pk key children, parent, cursor, level =>
    let r := treeifyL tree_id children (some pk) cursor (level + 1)
    (⟨pk, parent, cursor, r.2 + 1, level, tree_id, key⟩ :: r.1, r.2 + 1)

/-- The loop of `treeify` over the children: each child starts one past the
running cursor. -/
def treeifyL (tree_id : Int) : List TreeData → Option Nat → Int → Int → List Node × Int
  | [], _, cursor, _ => ([], cursor)
  | c :: cs, parent, cursor, level =>
    let r₁ := treeify tree_id c parent (cursor + 1) level
    let r₂ := treeifyL tree_id cs parent r₁.2 level
    (r₁.1 ++ r₂.1, r₂.2)
end

/-- `TreeManager.build_tree_nodes`: converts the nested description into
final rows in one traversal; the starting cursor and level come from the
anchor exactly as an insertion would place them, and an anchored build opens
space of twice the produced node count in the destination tree.
`rootParent` is the `parent_id` the description carries on its root. -/
def build_tree_nodes (st : MpttState) (data : TreeData) (rootParent : Option Nat)
    (target : Option Node) (position : String) (root_ordering : Bool) (genDefault : Int) :
    MpttState × List Node :=
  match target with
  | some target =>
    let tree_id := target.tree_id
    let cursor_level :=
      if position = "left" ∨ position = "right" then
        (if position = "left" then target.lft else target.rght + 1, target.level)
      else
        (if position = "first-child" then target.lft + 1 else target.rght, target.level + 1)
    let stack := (treeify tree_id data rootParent cursor_level.1 cursor_level.2).1
    let st := _create_space (2 * (stack.length : Int)) (cursor_level.1 - 1) tree_id st
    (st, stack)
  | none =>
    let tree_id := _get_next_tree_id root_ordering genDefault st.db
    let stack := (treeify tree_id data rootParent 1 0).1
    (st, stack)

/-! ## UpdateTracker -/

/-- One step a delayed-update scope body may take: a space operation routed
through `_manage_space` (which, while tracking, only records the tree id), a
row write of the body's own, or an exception raised by the body. -/
inductive TrackOp where
  | space (size target tree_id : Int)
  | write (n : Node)
  | raiseErr
deriving Repr

/-- Runs a scope body: the steps in order, stopping at the first raised
exception; returns the state the body left and whether it raised. -/
def runBody : List TrackOp → MpttState → MpttState × Bool
  | [], st => (st, false)
  | .space size target tree_id :: ops, st => runBody ops (_manage_space size target tree_id st)
  | .write n :: ops, st => runBody ops { st with db := saveNode n st.db }
  | .raiseErr :: _, st => (st, true)

/-- The rebuild loop at the end of `delay_mptt_updates`: `partial_rebuild`
per recorded tree id, a raise stopping the loop. -/
def applyRebuilds (useKey seq : Bool) (gen : Nat → Int) :
    List Int → List Node → List Node × Option TreeError
  | [], db => (db, none)
  | t :: ts, db =>
    match partial_rebuild t useKey seq gen db with
    | .error e => (db, some e)
    | .ok db' => applyRebuilds useKey seq gen ts db'

/-- `TreeManager.delay_mptt_updates`: runs the body with tracking started; on
a raise the tracking record is discarded and the exception propagates with
the table as the body left it; on clean exit `partial_rebuild` runs once per
recorded tree id. -/
def delay_mptt_updates (useKey seq : Bool) (gen : Nat → Int) (ops : List TrackOp)
    (db : List Node) : List Node × Option TreeError :=
  let r := runBody ops { db := db, tracking := true, dirty := [] }
  if r.2 then (r.1.db, some .bodyError)
  else applyRebuilds useKey seq gen r.1.dirty r.1.db

/-! ## Claim C1: the concrete cross-tree first-child move scenario -/

/-- C1: moving child C (left=4, right=5, level=1) out of tree 1 (root A,
left=1, right=6, child B at 2..3) to be first-child of root D (left=1,
right=2) of tree 2, outside any tracking scope, opens a width-2 space in
tree 2 after position 1 so D's right becomes 4, gives C left=2, right=3,
level=1, tree_id=2, parent=D, and closes the vacated gap so A's right
becomes 4. -/
theorem move_child_to_new_tree_scenario :
    move_node [⟨1, none, 1, 6, 0, 1, 0⟩, ⟨2, some 1, 2, 3, 1, 1, 0⟩,
               ⟨3, some 1, 4, 5, 1, 1, 0⟩, ⟨4, none, 1, 2, 0, 2, 0⟩]
        ⟨3, some 1, 4, 5, 1, 1, 0⟩ (some ⟨4, none, 1, 2, 0, 2, 0⟩) "first-child" true 0 =
      .ok ([⟨1, none, 1, 4, 0, 1, 0⟩, ⟨2, some 1, 2, 3, 1, 1, 0⟩,
            ⟨3, some 4, 2, 3, 1, 2, 0⟩, ⟨4, none, 1, 4, 0, 2, 0⟩],
           ⟨3, some 4, 2, 3, 1, 2, 0⟩) := by
  rfl

/-! ## Claim C2: `create_space` and `close_gap` outside tracking -/

/-- C2: outside an active tracking scope, `_create_space size target tree_id`
adds `size` to the left of every node of that tree whose left exceeds
`target` and to the right of every node whose right exceeds `target`,
leaving every other value and every other tree unchanged; `_close_gap` is
the same update with the negated size. -/
theorem create_space_close_gap_spec (st : MpttState) (size target tree_id : Int)
    (h : st.tracking = false) :
    (_create_space size target tree_id st).db =
      st.db.map (fun n =>
        if n.tree_id = tree_id then
          { n with lft := if target < n.lft then n.lft + size else n.lft,
                   rght := if target < n.rght then n.rght + size else n.rght }
        else n) ∧
    _close_gap size target tree_id st = _create_space (-size) target tree_id st := by
  refine ⟨?_, rfl⟩
  simp only [_create_space, _manage_space, h, Bool.false_eq_true, if_false, manageSpaceDb]
  congr 1
  funext n
  by_cases ht : n.tree_id = tree_id
  · by_cases hl : target < n.lft <;> by_cases hr : target < n.rght
    · rw [if_pos ⟨ht, Or.inl hl⟩, if_pos ht]
    · rw [if_pos ⟨ht, Or.inl hl⟩, if_pos ht]
    · rw [if_pos ⟨ht, Or.inr hr⟩, if_pos ht]
    · rw [if_neg (fun hc => hc.2.elim hl hr), if_pos ht, if_neg hl, if_neg hr]
  · rw [if_neg (fun hc => ht hc.1), if_neg ht]

/-- Witness for C2 at a concrete state. -/
theorem create_space_close_gap_spec_witness :
    (_create_space 2 1 1 ⟨[⟨1, none, 1, 2, 0, 1, 0⟩, ⟨2, none, 1, 2, 0, 5, 0⟩], false, []⟩).db =
      [⟨1, none, 1, 4, 0, 1, 0⟩, ⟨2, none, 1, 2, 0, 5, 0⟩] := by
  have h := create_space_close_gap_spec
    ⟨[⟨1, none, 1, 2, 0, 1, 0⟩, ⟨2, none, 1, 2, 0, 5, 0⟩], false, []⟩ 2 1 1 rfl
  rw [h.1]
  rfl

/-! ## Claim C3: `partial_rebuild` by root count -/

/-- C3: `partial_rebuild tree_id` is a no-op when no root carries `tree_id`,
delegates to the full rebuild restricted to `tree_id` when exactly one root
does, and raises the corruption error without touching anything when more
than one does. -/
theorem partial_rebuild_root_count (db : List Node) (tree_id : Int) (useKey seq : Bool)
    (gen : Nat → Int) :
    ((db.filter (fun n => is_root_node n ∧ n.tree_id = tree_id)).length = 0 →
      partial_rebuild tree_id useKey seq gen db = .ok db) ∧
    ((db.filter (fun n => is_root_node n ∧ n.tree_id = tree_id)).length = 1 →
      partial_rebuild tree_id useKey seq gen db = rebuild useKey seq gen (some tree_id) db) ∧
    (2 ≤ (db.filter (fun n => is_root_node n ∧ n.tree_id = tree_id)).length →
      partial_rebuild tree_id useKey seq gen db = .error .corruptTree) := by
  refine ⟨fun h => ?_, fun h => ?_, fun h => ?_⟩
  · simp only [partial_rebuild]
    rw [if_pos h]
  · simp only [partial_rebuild]
    rw [if_neg (by omega), if_pos h]
  · simp only [partial_rebuild]
    rw [if_neg (by omega), if_neg (by omega)]

/-- Witness for C3: a two-root tree id raises, an absent tree id is a no-op. -/
theorem partial_rebuild_root_count_witness :
    partial_rebuild 1 true true (fun _ => 0)
        [⟨1, none, 1, 2, 0, 1, 0⟩, ⟨2, none, 1, 2, 0, 1, 0⟩] = .error .corruptTree ∧
    partial_rebuild 7 true true (fun _ => 0) [⟨1, none, 1, 2, 0, 1, 0⟩] =
      .ok [⟨1, none, 1, 2, 0, 1, 0⟩] := by
  exact ⟨(partial_rebuild_root_count _ 1 true true _).2.2 (by decide),
         (partial_rebuild_root_count _ 7 true true _).1 (by decide)⟩

/-! ## Claim C5: self and own-descendant targets -/

/-- C5: for every move with one of the four positions, a target equal to the
node itself, or a target lying strictly inside the node's own interval in
the node's tree (a proper descendant, hence a child node), makes `move_node`
raise `InvalidMove` before any geometry is computed, with no row modified. -/
theorem move_node_self_or_descendant (db : List Node) (node target : Node) (position : String)
    (root_ordering : Bool) (genDefault : Int)
    (hpos : position = "first-child" ∨ position = "last-child" ∨
            position = "left" ∨ position = "right")
    (h : target = node ∨
         (target.parent.isSome ∧ node.tree_id = target.tree_id ∧
          node.lft < target.lft ∧ target.lft < node.rght)) :
    move_node db node (some target) position root_ordering genDefault =
      .error .invalidMove := by
  simp only [move_node, _move_node]
  rcases h with heq | ⟨hps, htree, hlt, hrt⟩
  · subst heq
    by_cases hc : is_root_node target = true ∧ (position = "left" ∨ position = "right")
    · rw [if_pos hc]
      simp [_make_sibling_of_root_node]
    · rw [if_neg hc]
      by_cases hr : is_root_node target
      · simp [hr, _move_root_node]
      · simp only [hr, if_false, _move_child_node]
        rcases hpos with h1 | h1 | h1 | h1 <;> subst h1 <;>
          simp [_move_child_within_tree]
  · have hnr : is_root_node target = false := by
      unfold is_root_node
      cases hp : target.parent
      · rw [hp] at hps
        simp at hps
      · rfl
    rw [if_neg (by simp [hnr])]
    by_cases hr : is_root_node node
    · simp only [hr, if_true, _move_root_node]
      rcases Decidable.em (node.pk = target.pk) with hpk | hpk
      · rw [if_pos hpk]
      · rw [if_neg hpk, if_pos htree]
    · simp only [hr, if_false, _move_child_node]
      rw [if_pos htree]
      simp only [_move_child_within_tree]
      have hd : node.lft < target.lft ∧ target.lft < node.rght := ⟨hlt, hrt⟩
      rcases hpos with h1 | h1 | h1 | h1 <;> subst h1 <;>
        simp only [String.reduceEq, true_or, or_true, false_or, or_false, or_self,
                   if_true, if_false]
      · rcases Decidable.em (node.pk = target.pk) with hpk | hpk
        · rw [if_pos hpk] <;> rfl
        · rw [if_neg hpk, if_pos hd] <;> rfl
      · rcases Decidable.em (node.pk = target.pk) with hpk | hpk
        · rw [if_pos hpk] <;> rfl
        · rw [if_neg hpk, if_pos hd] <;> rfl
      · rcases Decidable.em (node.pk = target.pk) with hpk | hpk
        · rw [if_pos hpk] <;> rfl
        · rw [if_neg hpk, if_pos hd] <;> rfl
      · rcases Decidable.em (node.pk = target.pk) with hpk | hpk
        · rw [if_pos hpk] <;> rfl
        · rw [if_neg hpk, if_pos hd] <;> rfl

/-- Witness for C5: a self move and a move under one's own descendant. -/
theorem move_node_self_or_descendant_witness :
    move_node [⟨1, none, 1, 4, 0, 1, 0⟩, ⟨2, some 1, 2, 3, 1, 1, 0⟩]
        ⟨1, none, 1, 4, 0, 1, 0⟩ (some ⟨1, none, 1, 4, 0, 1, 0⟩) "last-child" true 0 =
      .error .invalidMove ∧
    move_node [⟨1, none, 1, 4, 0, 1, 0⟩, ⟨2, some 1, 2, 3, 1, 1, 0⟩]
        ⟨1, none, 1, 4, 0, 1, 0⟩ (some ⟨2, some 1, 2, 3, 1, 1, 0⟩) "first-child" true 0 =
      .error .invalidMove := by
  constructor
  · exact move_node_self_or_descendant _ ⟨1, none, 1, 4, 0, 1, 0⟩ ⟨1, none, 1, 4, 0, 1, 0⟩
      "last-child" true 0 (Or.inr (Or.inl rfl)) (Or.inl rfl)
  · exact move_node_self_or_descendant _ ⟨1, none, 1, 4, 0, 1, 0⟩ ⟨2, some 1, 2, 3, 1, 1, 0⟩
      "first-child" true 0 (Or.inl rfl) (Or.inr (by refine ⟨rfl, rfl, ?_, ?_⟩ <;> decide))

/-! ## Claim C6: same-position moves are no-ops -/

/-- A map that fixes every element leaves the table unchanged. -/
theorem map_noop (f : Node → Node) (db : List Node) (h : ∀ n, f n = n) : db.map f = db := by
  have hf : f = fun n => n := funext h
  rw [hf, List.map_id']

/-- A map that fixes every member leaves the table unchanged. -/
theorem map_noop_mem (f : Node → Node) (db : List Node) (h : ∀ n ∈ db, f n = n) :
    db.map f = db := by
  induction db with
  | nil => rfl
  | cons m ms ih =>
    simp only [List.map_cons, List.cons.injEq]
    exact ⟨h m (List.mem_cons_self _ _), ih (fun x hx => h x (List.mem_cons_of_mem _ hx))⟩

/-- Saving a node whose row(s) already hold exactly its values leaves the
table unchanged. -/
theorem saveNode_of_consistent (node : Node) (db : List Node)
    (h : ∀ m ∈ db, m.pk = node.pk → m = node) : saveNode node db = db := by
  unfold saveNode
  apply map_noop_mem
  intro m hm
  by_cases hp : m.pk = node.pk
  · rw [if_pos hp, h m hm hp]
  · rw [if_neg hp]

/-- Within-tree no-op: moving a child immediately left of the sibling that
already follows it. -/
theorem within_tree_noop_left (db : List Node) (node target : Node)
    (htp : target.parent = node.parent)
    (htree : node.tree_id = target.tree_id) (hpk : node.pk ≠ target.pk)
    (htl : target.lft = node.rght + 1) (hlev : target.level = node.level)
    (hlr : node.lft ≤ node.rght) :
    _move_child_within_tree db node target "left" = .ok (db, node) := by
  simp only [_move_child_within_tree, String.reduceEq, true_or, or_true, false_or,
             or_false, or_self, if_true, if_false]
  rw [if_neg hpk, if_neg (fun hc => by omega), if_pos (by omega : node.lft < target.lft)]
  refine congrArg Except.ok (Prod.ext ?_ ?_)
  · apply map_noop
    intro n
    by_cases ht : n.tree_id = node.tree_id
    · rw [if_pos ht]
      obtain ⟨pk, par, l, r, lv, tid, k⟩ := n
      simp only [Node.mk.injEq]
      refine ⟨trivial, trivial, ?_, ?_, ?_, trivial, trivial⟩ <;> split_ifs <;> omega
    · rw [if_neg ht]
  · obtain ⟨pk, par, l, r, lv, tid, k⟩ := node
    simp only at htl hlev htp hlr ⊢
    simp only [Node.mk.injEq]
    exact ⟨trivial, htp, by omega, by omega, by omega, trivial, trivial⟩

/-- Within-tree no-op: moving a child immediately right of the sibling that
already precedes it. -/
theorem within_tree_noop_right (db : List Node) (node target : Node)
    (htp : target.parent = node.parent)
    (htree : node.tree_id = target.tree_id) (hpk : node.pk ≠ target.pk)
    (htr : target.rght = node.lft - 1) (hlev : target.level = node.level)
    (htlr : target.lft ≤ target.rght) (hlr : node.lft ≤ node.rght) :
    _move_child_within_tree db node target "right" = .ok (db, node) := by
  simp only [_move_child_within_tree, String.reduceEq, true_or, or_true, false_or,
             or_false, or_self, if_true, if_false]
  rw [if_neg hpk, if_neg (fun hc => by omega), if_neg (by omega : ¬node.rght < target.rght)]
  refine congrArg Except.ok (Prod.ext ?_ ?_)
  · apply map_noop
    intro n
    by_cases ht : n.tree_id = node.tree_id
    · rw [if_pos ht]
      obtain ⟨pk, par, l, r, lv, tid, k⟩ := n
      simp only [Node.mk.injEq]
      refine ⟨trivial, trivial, ?_, ?_, ?_, trivial, trivial⟩ <;> split_ifs <;> omega
    · rw [if_neg ht]
  · obtain ⟨pk, par, l, r, lv, tid, k⟩ := node
    simp only at htr hlev htp htlr hlr ⊢
    simp only [Node.mk.injEq]
    exact ⟨trivial, htp, by omega, by omega, by omega, trivial, trivial⟩

/-- Within-tree no-op: moving a child to last-child of its parent when it is
already the last child. -/
theorem within_tree_noop_last_child (db : List Node) (node target : Node)
    (hpar : node.parent = some target.pk)
    (htree : node.tree_id = target.tree_id) (hpk : node.pk ≠ target.pk)
    (htr : target.rght = node.rght + 1) (hlev : target.level = node.level - 1)
    (htl : target.lft < node.lft) :
    _move_child_within_tree db node target "last-child" = .ok (db, node) := by
  simp only [_move_child_within_tree, String.reduceEq, true_or, or_true, false_or,
             or_false, or_self, if_true, if_false]
  rw [if_neg hpk, if_neg (fun hc => by omega), if_pos (by omega : node.rght < target.rght)]
  refine congrArg Except.ok (Prod.ext ?_ ?_)
  · apply map_noop
    intro n
    by_cases ht : n.tree_id = node.tree_id
    · rw [if_pos ht]
      obtain ⟨pk, par, l, r, lv, tid, k⟩ := n
      simp only [Node.mk.injEq]
      refine ⟨trivial, trivial, ?_, ?_, ?_, trivial, trivial⟩ <;> split_ifs <;> omega
    · rw [if_neg ht]
  · obtain ⟨pk, par, l, r, lv, tid, k⟩ := node
    simp only at hpar htr hlev htl ⊢
    simp only [Node.mk.injEq]
    exact ⟨trivial, hpar.symm, by omega, by omega, by omega, trivial, trivial⟩

/-- Within-tree no-op: moving a child to first-child of its parent when it
is already the first child. -/
theorem within_tree_noop_first_child (db : List Node) (node target : Node)
    (hpar : node.parent = some target.pk)
    (htree : node.tree_id = target.tree_id) (hpk : node.pk ≠ target.pk)
    (htl : target.lft = node.lft - 1) (hlev : target.level = node.level - 1)
    (hlr : node.lft ≤ node.rght) :
    _move_child_within_tree db node target "first-child" = .ok (db, node) := by
  simp only [_move_child_within_tree, String.reduceEq, true_or, or_true, false_or,
             or_false, or_self, if_true, if_false]
  rw [if_neg hpk, if_neg (fun hc => by omega), if_neg (by omega : ¬node.lft < target.lft)]
  refine congrArg Except.ok (Prod.ext ?_ ?_)
  · apply map_noop
    intro n
    by_cases ht : n.tree_id = node.tree_id
    · rw [if_pos ht]
      obtain ⟨pk, par, l, r, lv, tid, k⟩ := n
      simp only [Node.mk.injEq]
      refine ⟨trivial, trivial, ?_, ?_, ?_, trivial, trivial⟩ <;> split_ifs <;> omega
    · rw [if_neg ht]
  · obtain ⟨pk, par, l, r, lv, tid, k⟩ := node
    simp only at hpar htl hlev hlr ⊢
    simp only [Node.mk.injEq]
    exact ⟨trivial, hpar.symm, by omega, by omega, by omega, trivial, trivial⟩

/-- Root no-op: placing a root left of the root it already precedes returns
with no update (the explicit neighbour check of the source). -/
theorem root_noop_left (db : List Node) (node target : Node) (sib : Node)
    (root_ordering : Bool) (genDefault : Int)
    (hpn : node.parent = none) (hpk : node.pk ≠ target.pk)
    (hlt : node.tree_id < target.tree_id)
    (hsib : get_previous_root_sibling db target = some sib) (hsp : sib.pk = node.pk) :
    _make_sibling_of_root_node db node target "left" root_ordering genDefault =
      .ok (db, node) := by
  simp only [_make_sibling_of_root_node, String.reduceEq, true_or, or_true, false_or,
             or_false, or_self, if_true, if_false]
  have hch : ¬(is_child_node node = true) := by simp [is_child_node, hpn]
  rw [if_neg hpk, if_neg hch, if_pos hlt, hsib]
  exact if_pos hsp.symm

/-- Root no-op: placing a root right of the root it already follows returns
with no update (the explicit neighbour check of the source). -/
theorem root_noop_right (db : List Node) (node target : Node) (sib : Node)
    (root_ordering : Bool) (genDefault : Int)
    (hpn : node.parent = none) (hpk : node.pk ≠ target.pk)
    (hgt : ¬node.tree_id < target.tree_id)
    (hsib : get_next_root_sibling db target = some sib) (hsp : sib.pk = node.pk) :
    _make_sibling_of_root_node db node target "right" root_ordering genDefault =
      .ok (db, node) := by
  simp only [_make_sibling_of_root_node, String.reduceEq, true_or, or_true, false_or,
             or_false, or_self, if_true, if_false]
  have hch : ¬(is_child_node node = true) := by simp [is_child_node, hpn]
  rw [if_neg hpk, if_neg hch, if_neg hgt, hsib]
  exact if_pos hsp.symm

/-- The shapes of "target and position denoting the node's current exact
position": the four child placements next to its current neighbours or at
the edge of its current parent, and the two explicit root-neighbour checks. -/
def NoOpCase (db : List Node) (node target : Node) (position : String) : Prop :=
  (position = "left" ∧ node.parent.isSome ∧ target.parent = node.parent ∧
     node.tree_id = target.tree_id ∧ node.pk ≠ target.pk ∧
     target.lft = node.rght + 1 ∧ target.level = node.level ∧ node.lft ≤ node.rght) ∨
  (position = "right" ∧ node.parent.isSome ∧ target.parent = node.parent ∧
     node.tree_id = target.tree_id ∧ node.pk ≠ target.pk ∧
     target.rght = node.lft - 1 ∧ target.level = node.level ∧
     target.lft ≤ target.rght ∧ node.lft ≤ node.rght) ∨
  (position = "last-child" ∧ node.parent = some target.pk ∧
     node.tree_id = target.tree_id ∧ node.pk ≠ target.pk ∧
     target.rght = node.rght + 1 ∧ target.level = node.level - 1 ∧
     target.lft < node.lft) ∨
  (position = "first-child" ∧ node.parent = some target.pk ∧
     node.tree_id = target.tree_id ∧ node.pk ≠ target.pk ∧
     target.lft = node.lft - 1 ∧ target.level = node.level - 1 ∧
     node.lft ≤ node.rght) ∨
  (position = "left" ∧ node.parent = none ∧ target.parent = none ∧
     node.pk ≠ target.pk ∧ node.tree_id < target.tree_id ∧
     ∃ sib, get_previous_root_sibling db target = some sib ∧ sib.pk = node.pk) ∨
  (position = "right" ∧ node.parent = none ∧ target.parent = none ∧
     node.pk ≠ target.pk ∧ ¬node.tree_id < target.tree_id ∧
     ∃ sib, get_next_root_sibling db target = some sib ∧ sib.pk = node.pk)

/-- C6: `move_node` with a target and position that denote the node's
current exact position succeeds with no error and leaves every row and all
four of the node's fields unchanged (assuming the node's row agrees with the
in-memory node). -/
theorem move_node_same_position_noop (db : List Node) (node target : Node) (position : String)
    (root_ordering : Bool) (genDefault : Int)
    (hrow : ∀ m ∈ db, m.pk = node.pk → m = node)
    (h : NoOpCase db node target position) :
    move_node db node (some target) position root_ordering genDefault = .ok (db, node) := by
  have hsave : saveNode node db = db := saveNode_of_consistent node db hrow
  simp only [move_node, _move_node]
  rcases h with ⟨hp, hps, htp, htree, hpk, htl, hlev, hlr⟩ |
    ⟨hp, hps, htp, htree, hpk, htr, hlev, htlr, hlr⟩ |
    ⟨hp, hpar, htree, hpk, htr, hlev, htl⟩ |
    ⟨hp, hpar, htree, hpk, htl, hlev, hlr⟩ |
    ⟨hp, hpn, htn, hpk, hlt, sib, hsib, hsp⟩ |
    ⟨hp, hpn, htn, hpk, hgt, sib, hsib, hsp⟩
  · subst hp
    have hnt : is_root_node target = false := by
      unfold is_root_node
      rw [htp]
      cases hq : node.parent
      · rw [hq] at hps
        simp at hps
      · rfl
    rw [if_neg (by simp [hnt])]
    have hnn : is_root_node node = false := by
      unfold is_root_node
      cases hq : node.parent
      · rw [hq] at hps
        simp at hps
      · rfl
    rw [if_neg (by simp [hnn])]
    simp only [_move_child_node]
    rw [if_pos htree, within_tree_noop_left db node target htp htree hpk htl hlev hlr]
    show Except.ok (saveNode node db, node) = Except.ok (db, node)
    rw [hsave]
  · subst hp
    have hnt : is_root_node target = false := by
      unfold is_root_node
      rw [htp]
      cases hq : node.parent
      · rw [hq] at hps
        simp at hps
      · rfl
    rw [if_neg (by simp [hnt])]
    have hnn : is_root_node node = false := by
      unfold is_root_node
      cases hq : node.parent
      · rw [hq] at hps
        simp at hps
      · rfl
    rw [if_neg (by simp [hnn])]
    simp only [_move_child_node]
    rw [if_pos htree,
        within_tree_noop_right db node target htp htree hpk htr hlev htlr hlr]
    show Except.ok (saveNode node db, node) = Except.ok (db, node)
    rw [hsave]
  · subst hp
    rw [if_neg (by simp)]
    have hnn : is_root_node node = false := by simp [is_root_node, hpar]
    rw [if_neg (by simp [hnn])]
    simp only [_move_child_node]
    rw [if_pos htree,
        within_tree_noop_last_child db node target hpar htree hpk htr hlev htl]
    show Except.ok (saveNode node db, node) = Except.ok (db, node)
    rw [hsave]
  · subst hp
    rw [if_neg (by simp)]
    have hnn : is_root_node node = false := by simp [is_root_node, hpar]
    rw [if_neg (by simp [hnn])]
    simp only [_move_child_node]
    rw [if_pos htree,
        within_tree_noop_first_child db node target hpar htree hpk htl hlev hlr]
    show Except.ok (saveNode node db, node) = Except.ok (db, node)
    rw [hsave]
  · subst hp
    rw [if_pos ⟨by simp [is_root_node, htn], Or.inl rfl⟩,
        root_noop_left db node target sib root_ordering genDefault hpn hpk hlt hsib hsp]
    show Except.ok (saveNode node db, node) = Except.ok (db, node)
    rw [hsave]
  · subst hp
    rw [if_pos ⟨by simp [is_root_node, htn], Or.inr rfl⟩,
        root_noop_right db node target sib root_ordering genDefault hpn hpk hgt hsib hsp]
    show Except.ok (saveNode node db, node) = Except.ok (db, node)
    rw [hsave]

/-- Witness for C6: a node already the last child of its parent moved to
last-child of that parent, and a root moved left of the root it already
precedes. -/
theorem move_node_same_position_noop_witness :
    move_node [⟨1, none, 1, 4, 0, 1, 0⟩, ⟨2, some 1, 2, 3, 1, 1, 0⟩]
        ⟨2, some 1, 2, 3, 1, 1, 0⟩ (some ⟨1, none, 1, 4, 0, 1, 0⟩) "last-child" true 0 =
      .ok ([⟨1, none, 1, 4, 0, 1, 0⟩, ⟨2, some 1, 2, 3, 1, 1, 0⟩],
           ⟨2, some 1, 2, 3, 1, 1, 0⟩) ∧
    move_node [⟨1, none, 1, 2, 0, 1, 0⟩, ⟨2, none, 1, 2, 0, 2, 0⟩]
        ⟨1, none, 1, 2, 0, 1, 0⟩ (some ⟨2, none, 1, 2, 0, 2, 0⟩) "left" true 0 =
      .ok ([⟨1, none, 1, 2, 0, 1, 0⟩, ⟨2, none, 1, 2, 0, 2, 0⟩],
           ⟨1, none, 1, 2, 0, 1, 0⟩) := by
  constructor
  · exact move_node_same_position_noop _ _ _ _ true 0
      (by decide)
      (Or.inr (Or.inr (Or.inl (by refine ⟨rfl, rfl, rfl, ?_, ?_, ?_, ?_⟩ <;> decide))))
  · exact move_node_same_position_noop _ _ _ _ true 0
      (by decide)
      (Or.inr (Or.inr (Or.inr (Or.inr (Or.inl
        ⟨rfl, rfl, rfl, by decide, by decide,
         ⟨⟨1, none, 1, 2, 0, 1, 0⟩, rfl, rfl⟩⟩)))))

/-! ## Claim C9: unrecognized position tokens -/

/-- C9 counterexample: with a `none` target the position token is never
consulted — `insert_node` with the unrecognized token "banana" succeeds and
sets the node up as a new root instead of raising the invalid-position
error. -/
theorem insert_node_invalid_position_ignored :
    insert_node ⟨[], false, []⟩ ⟨0, none, 0, 0, 0, 0, 0⟩ none "banana" false true 0 =
      .ok (⟨[], false, []⟩, ⟨0, none, 1, 2, 0, 1, 0⟩) := by
  rfl

/-- C9 amended: when a target node is given, a position token outside
`{first-child, last-child, left, right}` makes `move_node` raise the
invalid-position error (provided the move is not already rejected as
`InvalidMove`, which for a root node means a self target or a target in its
own tree and is checked first), and makes `insert_node` of a fresh node
raise it too, with no row modified; with a `none` target the token is
ignored. -/
theorem invalid_position_raises (db : List Node) (node t : Node) (position : String)
    (root_ordering : Bool) (genDefault : Int) (st : MpttState) (fresh : Node)
    (h1 : position ≠ "first-child") (h2 : position ≠ "last-child")
    (h3 : position ≠ "left") (h4 : position ≠ "right")
    (hroot : is_root_node node = true → node.pk ≠ t.pk ∧ node.tree_id ≠ t.tree_id)
    (hfresh : fresh.pk = 0) :
    move_node db node (some t) position root_ordering genDefault = .error .invalidPosition ∧
    insert_node st fresh (some t) position false root_ordering genDefault =
      .error .invalidPosition := by
  have hcl : ¬(position = "last-child" ∨ position = "first-child") :=
    fun hc => hc.elim h2 h1
  have hlr : ¬(position = "left" ∨ position = "right") :=
    fun hc => hc.elim h3 h4
  constructor
  · simp only [move_node, _move_node]
    rw [if_neg (fun hc => hlr hc.2)]
    by_cases hr : is_root_node node
    · obtain ⟨hpk, htree⟩ := hroot hr
      simp only [hr, if_true, _move_root_node]
      rw [if_neg hpk, if_neg htree]
      simp only [_calculate_inter_tree_move_values]
      rw [if_neg hcl, if_neg hlr]
    · simp only [hr, if_false, _move_child_node]
      by_cases htree : node.tree_id = t.tree_id
      · simp only [htree, if_true, _move_child_within_tree]
        rw [if_neg hcl, if_neg hlr]
        rfl
      · simp only [htree, if_false, _move_child_to_new_tree,
                   _calculate_inter_tree_move_values]
        rw [if_neg hcl, if_neg hlr]
        rfl
  · simp only [insert_node, hfresh]
    rw [if_neg (by simp)]
    simp only [insert_node_main]
    rw [if_neg (fun hc => hlr hc.2)]
    simp only [_calculate_inter_tree_move_values]
    rw [if_neg hcl, if_neg hlr]

/-- Witness for C9's amended theorem at a concrete move and insert. -/
theorem invalid_position_raises_witness :
    move_node [⟨1, none, 1, 2, 0, 1, 0⟩] ⟨1, none, 1, 2, 0, 1, 0⟩
        (some ⟨2, none, 1, 2, 0, 2, 0⟩) "banana" true 0 = .error .invalidPosition ∧
    insert_node ⟨[], false, []⟩ ⟨0, none, 0, 0, 0, 0, 0⟩
        (some ⟨2, none, 1, 2, 0, 2, 0⟩) "banana" false true 0 = .error .invalidPosition := by
  exact invalid_position_raises [⟨1, none, 1, 2, 0, 1, 0⟩] ⟨1, none, 1, 2, 0, 1, 0⟩
    ⟨2, none, 1, 2, 0, 2, 0⟩ "banana" true 0 ⟨[], false, []⟩ ⟨0, none, 0, 0, 0, 0, 0⟩
    (by decide) (by decide) (by decide) (by decide) (by decide) rfl

/-! ## Claim C10: `insert_node` and an already-saved primary key -/

/-- C10: `insert_node` of a node whose primary key is set and already present
among the stored rows raises before touching anything when
`allow_existing_pk` is false, and with `allow_existing_pk` true the very same
call runs the normal insertion body. -/
theorem insert_node_existing_pk (st : MpttState) (node : Node) (target : Option Node)
    (position : String) (root_ordering : Bool) (genDefault : Int)
    (hpk : node.pk ≠ 0) (hex : st.db.any (fun m => m.pk = node.pk) = true) :
    insert_node st node target position false root_ordering genDefault =
      .error .duplicatePk ∧
    insert_node st node target position true root_ordering genDefault =
      insert_node_main st node target position root_ordering genDefault := by
  constructor
  · simp [insert_node, hpk, hex]
  · simp only [insert_node]
    rw [if_neg (by simp)]

/-- Witness for C10 at a concrete state and node. -/
theorem insert_node_existing_pk_witness :
    insert_node ⟨[⟨5, none, 1, 2, 0, 1, 0⟩], false, []⟩ ⟨5, none, 1, 2, 0, 1, 0⟩
        none "last-child" false true 0 = .error .duplicatePk := by
  exact (insert_node_existing_pk ⟨[⟨5, none, 1, 2, 0, 1, 0⟩], false, []⟩
    ⟨5, none, 1, 2, 0, 1, 0⟩ none "last-child" true 0 (by decide) (by decide)).1

/-! ## Claim C4: idempotence of `rebuild` -/

/-- `updFields` touches only the rebuild fields: pk, parent and the order
key survive. -/
theorem updFields_pk (A : List (PosAssign × Int)) (n : Node) : (updFields A n).pk = n.pk := by
  unfold updFields
  cases A.find? (fun a => a.1.pk = n.pk) <;> rfl

theorem updFields_parent (A : List (PosAssign × Int)) (n : Node) :
    (updFields A n).parent = n.parent := by
  unfold updFields
  cases A.find? (fun a => a.1.pk = n.pk) <;> rfl

theorem updFields_sort_key (A : List (PosAssign × Int)) (n : Node) :
    (updFields A n).sort_key = n.sort_key := by
  unfold updFields
  cases A.find? (fun a => a.1.pk = n.pk) <;> rfl

/-- Filtering commutes with a row map that preserves the filter. -/
theorem filter_map_comm (f : Node → Node) (p : Node → Bool) (db : List Node)
    (h : ∀ n, p (f n) = p n) : (db.map f).filter p = (db.filter p).map f := by
  induction db with
  | nil => rfl
  | cons m ms ih =>
    simp only [List.map_cons, List.filter_cons, h m]
    cases p m <;> simp [ih]

/-- Stable insertion commutes with a row map that preserves the order. -/
theorem insSorted_map (le : Node → Node → Bool) (f : Node → Node) (x : Node) (l : List Node)
    (h : ∀ a b, le (f a) (f b) = le a b) :
    insSorted le (f x) (l.map f) = (insSorted le x l).map f := by
  induction l with
  | nil => rfl
  | cons y ys ih =>
    simp only [List.map_cons, insSorted, h x y]
    cases le x y <;> simp [ih]

/-- Insertion sort commutes with a row map that preserves the order. -/
theorem sortNodes_map (le : Node → Node → Bool) (f : Node → Node) (l : List Node)
    (h : ∀ a b, le (f a) (f b) = le a b) :
    sortNodes le (l.map f) = (sortNodes le l).map f := by
  induction l with
  | nil => rfl
  | cons y ys ih =>
    simp only [List.map_cons, sortNodes, ih]
    exact insSorted_map le f y (sortNodes le ys) h

/-- Under the order-insertion key, the parents of the rewritten table are the
rewritten parents of the original table. -/
theorem getParents_applyAssigns (A : List (PosAssign × Int)) (db : List Node) :
    getParents true none (applyAssigns A db) = (getParents true none db).map (updFields A) := by
  simp only [getParents, applyAssigns, querysetOrder, if_true]
  rw [filter_map_comm _ _ _ (fun n => by simp [is_root_node, updFields_parent]),
      sortNodes_map _ _ _ (fun a b => by simp [keyLe, updFields_sort_key])]

/-- Under the order-insertion key, rewriting the rebuild fields does not
change the child map. -/
theorem getChildrenMap_applyAssigns (A : List (PosAssign × Int)) (db : List Node) :
    getChildrenMap true none (applyAssigns A db) = getChildrenMap true none db := by
  funext p
  simp only [getChildrenMap, applyAssigns, querysetOrder, if_true]
  rw [filter_map_comm _ _ _ (fun n => by simp [is_child_node, updFields_parent]),
      sortNodes_map _ _ _ (fun a b => by simp [keyLe, updFields_sort_key]),
      List.filterMap_map]
  congr 1
  funext n
  simp [Function.comp, updFields_parent, updFields_pk]

/-- The pk sequence of rewritten rows is that of the original rows. -/
theorem map_pk_map_updFields (A : List (PosAssign × Int)) (l : List Node) :
    (l.map (updFields A)).map (fun n => n.pk) = l.map (fun n => n.pk) := by
  rw [List.map_map]
  congr 1
  funext n
  simp [Function.comp, updFields_pk]

/-- The root walk depends on the generator only through the tree ids: with
the same child map, fuel and root pks, a second generator yields the same
positional assignments, and the very same assignments under sequential
numbering. -/
theorem rebuildRoots_gen (cm : Nat → List Nat) (fuel : Nat) (seq : Bool)
    (gen₁ gen₂ : Nat → Int) (base : Int) :
    ∀ (pks : List Nat) (i : Nat) (A₁ : List (PosAssign × Int)),
      rebuildRoots cm fuel seq gen₁ pks i base = .ok A₁ →
      ∃ A₂, rebuildRoots cm fuel seq gen₂ pks i base = .ok A₂ ∧
        A₂.map Prod.fst = A₁.map Prod.fst ∧ (seq = true → A₂ = A₁) := by
  intro pks
  induction pks with
  | nil =>
    intro i A₁ h
    simp only [rebuildRoots] at h
    cases h
    exact ⟨[], rfl, rfl, fun _ => rfl⟩
  | cons p ps ih =>
    intro i A₁ h
    simp only [rebuildRoots] at h ⊢
    cases hh : helperPk cm fuel p 1 0 with
    | error e => rw [hh] at h; cases h
    | ok r =>
      rw [hh] at h
      cases hr : rebuildRoots cm fuel seq gen₁ ps (i + 1) base with
      | error e => rw [hr] at h; cases h
      | ok rest₁ =>
        rw [hr] at h
        obtain ⟨rest₂, hrest₂, hfst, hseq⟩ := ih (i + 1) rest₁ hr
        rw [hrest₂]
        cases h
        refine ⟨_, rfl, ?_, ?_⟩
        · simp [Function.comp, hfst]
        · intro hs
          subst hs
          rw [hseq rfl]
          simp

/-- `find?` over two assignment lists with the same positional content gives
the same positional result at every pk. -/
theorem find_fst_congr (pk : Nat) :
    ∀ (A₁ A₂ : List (PosAssign × Int)), A₂.map Prod.fst = A₁.map Prod.fst →
      Option.map Prod.fst (A₂.find? (fun a => a.1.pk = pk)) =
        Option.map Prod.fst (A₁.find? (fun a => a.1.pk = pk)) := by
  intro A₁
  induction A₁ with
  | nil =>
    intro A₂ h
    cases A₂ with
    | nil => rfl
    | cons b B₂ => cases h
  | cons a A₁ ih =>
    intro A₂ h
    cases A₂ with
    | nil => cases h
    | cons b B₂ =>
      simp only [List.map_cons, List.cons.injEq] at h
      obtain ⟨hb, htail⟩ := h
      simp only [List.find?]
      by_cases hp : a.1.pk = pk
      · have e1 : decide (b.1.pk = pk) = true := by simp [hb, hp]
        have e2 : decide (a.1.pk = pk) = true := by simp [hp]
        rw [e1, e2]
        simp [hb]
      · have e1 : decide (b.1.pk = pk) = false := by simp [hb, hp]
        have e2 : decide (a.1.pk = pk) = false := by simp [hp]
        rw [e1, e2]
        exact ih B₂ htail

/-- Rewriting twice with the same assignments is rewriting once. -/
theorem updFields_idem (A : List (PosAssign × Int)) (n : Node) :
    updFields A (updFields A n) = updFields A n := by
  cases hf : A.find? (fun a => a.1.pk = n.pk) with
  | none =>
    have h1 : updFields A n = n := by unfold updFields; rw [hf]
    rw [h1, h1]
  | some a =>
    have h1 : updFields A n = { n with lft := a.1.lft, rght := a.1.rght, level := a.1.level, tree_id := a.2 } := by
      unfold updFields
      rw [hf]
    have h2 : ({ n with lft := a.1.lft, rght := a.1.rght, level := a.1.level, tree_id := a.2 } : Node).pk = n.pk := rfl
    rw [h1]
    unfold updFields
    rw [h2, hf]

/-- The rebuild fields written by a second pass with the same positional
assignments agree on pk, left, right and level with the first pass. -/
theorem updFields_proj (A₁ A₂ : List (PosAssign × Int))
    (hfst : A₂.map Prod.fst = A₁.map Prod.fst) (n : Node) :
    (updFields A₂ (updFields A₁ n)).pk = (updFields A₁ n).pk ∧
    (updFields A₂ (updFields A₁ n)).lft = (updFields A₁ n).lft ∧
    (updFields A₂ (updFields A₁ n)).rght = (updFields A₁ n).rght ∧
    (updFields A₂ (updFields A₁ n)).level = (updFields A₁ n).level := by
  have hcongr := find_fst_congr n.pk A₁ A₂ hfst
  refine ⟨updFields_pk A₂ _, ?_⟩
  cases h₁ : A₁.find? (fun a => a.1.pk = n.pk) with
  | none =>
    have e₁ : updFields A₁ n = n := by unfold updFields; rw [h₁]
    rw [h₁] at hcongr
    cases h₂ : A₂.find? (fun a => a.1.pk = n.pk) with
    | some b =>
      rw [h₂] at hcongr
      cases hcongr
    | none =>
      have e₂ : updFields A₂ n = n := by unfold updFields; rw [h₂]
      rw [e₁, e₂]
      exact ⟨rfl, rfl, rfl⟩
  | some a =>
    rw [h₁] at hcongr
    cases h₂ : A₂.find? (fun a => a.1.pk = n.pk) with
    | none =>
      rw [h₂] at hcongr
      cases hcongr
    | some b =>
      rw [h₂] at hcongr
      have hb : b.1 = a.1 := by simpa using hcongr
      have e₁ : updFields A₁ n = { n with lft := a.1.lft, rght := a.1.rght, level := a.1.level, tree_id := a.2 } := by
        unfold updFields
        rw [h₁]
      have e₂ : updFields A₂ { n with lft := a.1.lft, rght := a.1.rght, level := a.1.level, tree_id := a.2 } = { { n with lft := a.1.lft, rght := a.1.rght, level := a.1.level, tree_id := a.2 } with lft := b.1.lft, rght := b.1.rght, level := b.1.level, tree_id := b.2 } := by
        unfold updFields
        rw [show ({ n with lft := a.1.lft, rght := a.1.rght, level := a.1.level, tree_id := a.2 } : Node).pk = n.pk from rfl, h₂]
      rw [e₁, e₂, hb]
      exact ⟨rfl, rfl, rfl⟩

/-- C4 (amended): two consecutive `rebuild` runs with unchanged parent
pointers and order key give every node the same `left`, `right` and `level`
after the second run as after the first; under sequential root ordering the
whole table (tree ids included) is literally unchanged, while the fresh-key
generator mode regenerates root tree ids. -/
theorem rebuild_idempotent (seq : Bool) (gen₁ gen₂ : Nat → Int) (db db₁ : List Node)
    (h₁ : rebuild true seq gen₁ none db = .ok db₁) :
    ∃ db₂, rebuild true seq gen₂ none db₁ = .ok db₂ ∧
      db₂.map (fun n => (n.pk, n.lft, n.rght, n.level)) =
        db₁.map (fun n => (n.pk, n.lft, n.rght, n.level)) ∧
      (seq = true → db₂ = db₁) := by
  simp only [rebuild] at h₁
  cases hA₁ : rebuildRoots (getChildrenMap true none db) (db.length + 1) seq gen₁
      ((getParents true none db).map (fun n => n.pk)) 0 (Option.getD none 1) with
  | error e => rw [hA₁] at h₁; cases h₁
  | ok A₁ =>
    rw [hA₁] at h₁
    have hdb₁ : db₁ = applyAssigns A₁ db := by cases h₁; rfl
    have hlen : db₁.length = db.length := by rw [hdb₁]; exact List.length_map db _
    have hparents : (getParents true none db₁).map (fun n => n.pk) =
        (getParents true none db).map (fun n => n.pk) := by
      rw [hdb₁, getParents_applyAssigns, map_pk_map_updFields]
    have hcm : getChildrenMap true none db₁ = getChildrenMap true none db := by
      rw [hdb₁]
      exact getChildrenMap_applyAssigns A₁ db
    obtain ⟨A₂, hA₂, hfst, hseq⟩ :=
      rebuildRoots_gen (getChildrenMap true none db) (db.length + 1) seq gen₁ gen₂
        (Option.getD none 1) ((getParents true none db).map (fun n => n.pk)) 0 A₁ hA₁
    refine ⟨applyAssigns A₂ db₁, ?_, ?_, ?_⟩
    · simp only [rebuild, hparents, hcm, hlen, hA₂]
    · simp only [hdb₁, applyAssigns, List.map_map]
      congr 1
      funext n
      obtain ⟨e1, e2, e3, e4⟩ := updFields_proj A₁ A₂ hfst n
      simp [Function.comp, e1, e2, e3, e4]
    · intro hs
      rw [hseq hs, hdb₁]
      simp only [applyAssigns, List.map_map]
      congr 1
      funext n
      exact updFields_idem A₁ n

/-- C4 counterexample: in generator mode (`root_node_ordering` disabled) a
root receives a freshly generated tree id on every run, so the second
rebuild changes `tree_id` — here from 100 to 101 — and rebuild is not
idempotent on all four fields as stated. -/
theorem rebuild_not_idempotent_generator :
    rebuild true false (fun _ => 100) none [⟨1, none, 0, 0, 0, 5, 0⟩] =
      .ok [⟨1, none, 1, 2, 0, 100, 0⟩] ∧
    rebuild true false (fun _ => 101) none [⟨1, none, 1, 2, 0, 100, 0⟩] =
      .ok [⟨1, none, 1, 2, 0, 101, 0⟩] ∧
    (⟨1, none, 1, 2, 0, 101, 0⟩ : Node) ≠ ⟨1, none, 1, 2, 0, 100, 0⟩ := by
  refine ⟨by rfl, by rfl, by decide⟩

/-- Witness for C4's amended theorem: a concrete two-tree forest rebuilt
twice under sequential ordering is unchanged by the second run. -/
theorem rebuild_idempotent_witness :
    ∃ db₂, rebuild true true (fun _ => 0) none
        [⟨1, none, 1, 6, 0, 2, 2⟩, ⟨2, some 1, 4, 5, 1, 2, 5⟩,
         ⟨3, some 1, 2, 3, 1, 2, 1⟩, ⟨4, none, 1, 2, 0, 1, 0⟩] = .ok db₂ ∧
      db₂.map (fun n => (n.pk, n.lft, n.rght, n.level)) =
        ([⟨1, none, 1, 6, 0, 2, 2⟩, ⟨2, some 1, 4, 5, 1, 2, 5⟩,
          ⟨3, some 1, 2, 3, 1, 2, 1⟩, ⟨4, none, 1, 2, 0, 1, 0⟩] : List Node).map
          (fun n => (n.pk, n.lft, n.rght, n.level)) ∧
      (true = true → db₂ =
        [⟨1, none, 1, 6, 0, 2, 2⟩, ⟨2, some 1, 4, 5, 1, 2, 5⟩,
         ⟨3, some 1, 2, 3, 1, 2, 1⟩, ⟨4, none, 1, 2, 0, 1, 0⟩]) :=
  rebuild_idempotent true (fun _ => 0) (fun _ => 0)
    [⟨1, none, 9, 9, 9, 7, 2⟩, ⟨2, some 1, 0, 0, 0, 7, 5⟩,
     ⟨3, some 1, 0, 0, 4, 7, 1⟩, ⟨4, none, 1, 1, 1, 3, 0⟩]
    [⟨1, none, 1, 6, 0, 2, 2⟩, ⟨2, some 1, 4, 5, 1, 2, 5⟩,
     ⟨3, some 1, 2, 3, 1, 2, 1⟩, ⟨4, none, 1, 2, 0, 1, 0⟩]
    (by rfl)

/-! ## Claim C8: the bulk builder against a rebuild from parent pointers -/

/-- The pk at the root of a description. -/
def rootPk : TreeData → Nat
  | .node pk _ _ => pk

mutual
/-- All pks of a description, in pre-order. -/
def pksT : TreeData → List Nat
  | .node pk _ cs => pk :: pksL cs

/-- All pks of a forest of descriptions, in pre-order. -/
def pksL : List TreeData → List Nat
  | [] => []
  | c :: cs => pksT c ++ pksL cs
end

mutual
/-- The concatenated child pk lists over every occurrence of `p` in a
description. -/
def occChildren (p : Nat) : TreeData → List Nat
  | .node pk _ cs => (if pk = p then cs.map rootPk else []) ++ occL p cs

/-- `occChildren` over a forest. -/
def occL (p : Nat) : List TreeData → List Nat
  | [] => []
  | c :: cs => occChildren p c ++ occL p cs
end

mutual
/-- A child map agrees with a description when every described node's child
pk list is exactly what the map returns at its pk. -/
def cmAgrees (cm : Nat → List Nat) : TreeData → Prop
  | .node pk _ cs => cm pk = cs.map rootPk ∧ cmAgreesL cm cs

/-- `cmAgrees` over a forest. -/
def cmAgreesL (cm : Nat → List Nat) : List TreeData → Prop
  | [] => True
  | c :: cs => cmAgrees cm c ∧ cmAgreesL cm cs
end

mutual
/-- The depth of a description. -/
def depthT : TreeData → Nat
  | .node _ _ cs => depthL cs + 1

/-- The depth of a forest. -/
def depthL : List TreeData → Nat
  | [] => 0
  | c :: cs => max (depthT c) (depthL cs)
end

/-- The positional projection of a built row. -/
def projOf (n : Node) : PosAssign := ⟨n.pk, n.lft, n.rght, n.level⟩

mutual
/-- The built rows carry the description's pks in pre-order. -/
theorem treeify_pks (tid : Int) : ∀ (t : TreeData) (par : Option Nat) (cur lvl : Int),
    ((treeify tid t par cur lvl).1).map (fun n => n.pk) = pksT t
  | .node pk key cs, par, cur, lvl => by
    simp only [treeify, pksT, List.map_cons, List.cons.injEq]
    exact ⟨trivial, treeifyL_pks tid cs (some pk) cur (lvl + 1)⟩

/-- The built rows of a forest carry its pks in pre-order. -/
theorem treeifyL_pks (tid : Int) : ∀ (cs : List TreeData) (par : Option Nat) (cur lvl : Int),
    ((treeifyL tid cs par cur lvl).1).map (fun n => n.pk) = pksL cs
  | [], _, _, _ => rfl
  | c :: cs, par, cur, lvl => by
    simp only [treeifyL, pksL, List.map_append]
    rw [treeify_pks tid c par (cur + 1) lvl, treeifyL_pks tid cs par _ lvl]
end

mutual
/-- Every built row carries the builder's tree id. -/
theorem treeify_tree_id (tid : Int) : ∀ (t : TreeData) (par : Option Nat) (cur lvl : Int),
    ∀ n ∈ (treeify tid t par cur lvl).1, n.tree_id = tid
  | .node pk key cs, par, cur, lvl => by
    intro n hn
    simp only [treeify, List.mem_cons] at hn
    rcases hn with rfl | hn
    · rfl
    · exact treeifyL_tree_id tid cs (some pk) cur (lvl + 1) n hn

/-- Every built row of a forest carries the builder's tree id. -/
theorem treeifyL_tree_id (tid : Int) : ∀ (cs : List TreeData) (par : Option Nat) (cur lvl : Int),
    ∀ n ∈ (treeifyL tid cs par cur lvl).1, n.tree_id = tid
  | [], _, _, _ => by intro n hn; cases hn
  | c :: cs, par, cur, lvl => by
    intro n hn
    simp only [treeifyL, List.mem_append] at hn
    rcases hn with hn | hn
    · exact treeify_tree_id tid c par (cur + 1) lvl n hn
    · exact treeifyL_tree_id tid cs par _ lvl n hn
end

mutual
/-- Below a parented root, every built row has a parent. -/
theorem treeify_parent_isSome (tid : Int) : ∀ (t : TreeData) (q : Nat) (cur lvl : Int),
    ∀ n ∈ (treeify tid t (some q) cur lvl).1, n.parent.isSome
  | .node pk key cs, q, cur, lvl => by
    intro n hn
    simp only [treeify, List.mem_cons] at hn
    rcases hn with rfl | hn
    · rfl
    · exact treeifyL_parent_isSome tid cs pk cur (lvl + 1) n hn

/-- Every built row of a parented forest has a parent. -/
theorem treeifyL_parent_isSome (tid : Int) : ∀ (cs : List TreeData) (q : Nat) (cur lvl : Int),
    ∀ n ∈ (treeifyL tid cs (some q) cur lvl).1, n.parent.isSome
  | [], _, _, _ => by intro n hn; cases hn
  | c :: cs, q, cur, lvl => by
    intro n hn
    simp only [treeifyL, List.mem_append] at hn
    rcases hn with hn | hn
    · exact treeify_parent_isSome tid c q (cur + 1) lvl n hn
    · exact treeifyL_parent_isSome tid cs q _ lvl n hn
end

mutual
/-- Cursor discipline of the builder: the final cursor moves strictly past
the start, and every built `left` lies in the traversed window. -/
theorem treeify_lft_bounds (tid : Int) : ∀ (t : TreeData) (par : Option Nat) (cur lvl : Int),
    cur < (treeify tid t par cur lvl).2 ∧
    ∀ n ∈ (treeify tid t par cur lvl).1, cur ≤ n.lft ∧ n.lft < (treeify tid t par cur lvl).2
  | .node pk key cs, par, cur, lvl => by
    obtain ⟨h1, h2⟩ := treeifyL_lft_bounds tid cs (some pk) cur (lvl + 1)
    simp only [treeify]
    refine ⟨by omega, ?_⟩
    intro n hn
    simp only [List.mem_cons] at hn
    rcases hn with rfl | hn
    · refine ⟨le_refl _, ?_⟩
      show cur < (treeifyL tid cs (some pk) cur (lvl + 1)).2 + 1
      omega
    · have := h2 n hn
      omega

/-- Cursor discipline of the builder over a forest. -/
theorem treeifyL_lft_bounds (tid : Int) : ∀ (cs : List TreeData) (par : Option Nat) (cur lvl : Int),
    cur ≤ (treeifyL tid cs par cur lvl).2 ∧
    ∀ n ∈ (treeifyL tid cs par cur lvl).1, cur < n.lft ∧ n.lft < (treeifyL tid cs par cur lvl).2
  | [], _, _, _ => ⟨le_refl _, by intro n hn; cases hn⟩
  | c :: cs, par, cur, lvl => by
    obtain ⟨h1, h2⟩ := treeify_lft_bounds tid c par (cur + 1) lvl
    obtain ⟨h3, h4⟩ := treeifyL_lft_bounds tid cs par (treeify tid c par (cur + 1) lvl).2 lvl
    simp only [treeifyL]
    refine ⟨by omega, ?_⟩
    intro n hn
    simp only [List.mem_append] at hn
    rcases hn with hn | hn
    · have := h2 n hn
      omega
    · have := h4 n hn
      omega
end

mutual
/-- The built rows appear in strictly increasing `left` order. -/
theorem treeify_pairwise (tid : Int) : ∀ (t : TreeData) (par : Option Nat) (cur lvl : Int),
    ((treeify tid t par cur lvl).1).Pairwise (fun a b => a.lft < b.lft)
  | .node pk key cs, par, cur, lvl => by
    simp only [treeify]
    refine List.Pairwise.cons ?_ (treeifyL_pairwise tid cs (some pk) cur (lvl + 1))
    intro b hb
    exact ((treeifyL_lft_bounds tid cs (some pk) cur (lvl + 1)).2 b hb).1

/-- The built rows of a forest appear in strictly increasing `left` order. -/
theorem treeifyL_pairwise (tid : Int) : ∀ (cs : List TreeData) (par : Option Nat) (cur lvl : Int),
    ((treeifyL tid cs par cur lvl).1).Pairwise (fun a b => a.lft < b.lft)
  | [], _, _, _ => List.Pairwise.nil
  | c :: cs, par, cur, lvl => by
    simp only [treeifyL]
    rw [List.pairwise_append]
    refine ⟨treeify_pairwise tid c par (cur + 1) lvl,
            treeifyL_pairwise tid cs par (treeify tid c par (cur + 1) lvl).2 lvl, ?_⟩
    intro a ha b hb
    have ha2 := (treeify_lft_bounds tid c par (cur + 1) lvl).2 a ha
    have hb2 := (treeifyL_lft_bounds tid cs par (treeify tid c par (cur + 1) lvl).2 lvl).2 b hb
    omega
end

mutual
/-- The depth of a description is at most the number of rows it builds. -/
theorem depthT_le_length (tid : Int) : ∀ (t : TreeData) (par : Option Nat) (cur lvl : Int),
    depthT t ≤ ((treeify tid t par cur lvl).1).length
  | .node pk key cs, par, cur, lvl => by
    have := depthL_le_length tid cs (some pk) cur (lvl + 1)
    simp only [treeify, depthT, List.length_cons]
    omega

/-- The depth of a forest is at most the number of rows it builds. -/
theorem depthL_le_length (tid : Int) : ∀ (cs : List TreeData) (par : Option Nat) (cur lvl : Int),
    depthL cs ≤ ((treeifyL tid cs par cur lvl).1).length
  | [], _, _, _ => Nat.le_refl _
  | c :: cs, par, cur, lvl => by
    have h1 := depthT_le_length tid c par (cur + 1) lvl
    have h2 := depthL_le_length tid cs par (treeify tid c par (cur + 1) lvl).2 lvl
    simp only [treeifyL, depthL, List.length_append]
    omega
end

/-- Insertion sort leaves an already-sorted list unchanged. -/
theorem sortNodes_of_pairwise (le : Node → Node → Bool) :
    ∀ (l : List Node), l.Pairwise (fun a b => le a b = true) → sortNodes le l = l
  | [], _ => rfl
  | x :: xs, h => by
    simp only [sortNodes]
    rw [sortNodes_of_pairwise le xs h.of_cons]
    cases xs with
    | nil => rfl
    | cons y ys =>
      have hxy : le x y = true := (List.pairwise_cons.mp h).1 y (List.mem_cons_self _ _)
      simp [insSorted, hxy]

/-- Restricting to child rows does not change the child selector's output. -/
theorem filterMap_filter_child (p : Nat) (l : List Node) :
    (l.filter (fun n => is_child_node n)).filterMap
        (fun n => if n.parent = some p then some n.pk else none) =
      l.filterMap (fun n => if n.parent = some p then some n.pk else none) := by
  induction l with
  | nil => rfl
  | cons m ms ih =>
    by_cases hc : is_child_node m
    · simp [List.filter_cons, hc, List.filterMap_cons, ih]
    · have hp : m.parent = none := by
        unfold is_child_node at hc
        cases hm : m.parent
        · rfl
        · rw [hm] at hc
          simp at hc
      simp [List.filter_cons, hc, List.filterMap_cons, ih, hp]

mutual
/-- A pk absent from a description has no occurrence children. -/
theorem occChildren_of_not_mem (p : Nat) : ∀ (t : TreeData), p ∉ pksT t → occChildren p t = []
  | .node pk key cs, h => by
    simp only [pksT, List.mem_cons, not_or] at h
    simp only [occChildren]
    rw [if_neg (fun he => h.1 he.symm), occL_of_not_mem p cs h.2]
    rfl

/-- A pk absent from a forest has no occurrence children. -/
theorem occL_of_not_mem (p : Nat) : ∀ (cs : List TreeData), p ∉ pksL cs → occL p cs = []
  | [], _ => rfl
  | c :: cs, h => by
    simp only [pksL, List.mem_append, not_or] at h
    simp only [occL, occChildren_of_not_mem p c h.1, occL_of_not_mem p cs h.2]
    rfl
end

mutual
/-- Child selection over the rows built from a description not holding `p`:
only the root can point at `p`, through the passed-down parent. -/
theorem treeify_filterMap_not_mem (tid : Int) (p : Nat) :
    ∀ (t : TreeData) (par : Option Nat) (cur lvl : Int), p ∉ pksT t →
    ((treeify tid t par cur lvl).1).filterMap
        (fun n => if n.parent = some p then some n.pk else none) =
      if par = some p then [rootPk t] else []
  | .node pk key cs, par, cur, lvl, h => by
    simp only [pksT, List.mem_cons, not_or] at h
    have hno : ¬(some pk = some p) := fun he => h.1 (Option.some.inj he).symm
    simp only [treeify, List.filterMap_cons]
    rw [treeifyL_filterMap_not_mem tid p cs (some pk) cur (lvl + 1) h.2, if_neg hno]
    by_cases hp : par = some p
    · simp [hp, rootPk]
    · simp [hp]

/-- Child selection over the rows built from a forest not holding `p`. -/
theorem treeifyL_filterMap_not_mem (tid : Int) (p : Nat) :
    ∀ (cs : List TreeData) (par : Option Nat) (cur lvl : Int), p ∉ pksL cs →
    ((treeifyL tid cs par cur lvl).1).filterMap
        (fun n => if n.parent = some p then some n.pk else none) =
      if par = some p then cs.map rootPk else []
  | [], par, cur, lvl, _ => by
    simp [treeifyL]
  | c :: cs, par, cur, lvl, h => by
    simp only [pksL, List.mem_append, not_or] at h
    simp only [treeifyL, List.filterMap_append]
    rw [treeify_filterMap_not_mem tid p c par (cur + 1) lvl h.1,
        treeifyL_filterMap_not_mem tid p cs par (treeify tid c par (cur + 1) lvl).2 lvl h.2]
    by_cases hp : par = some p
    · simp [hp]
    · simp [hp]
end

mutual
/-- Child selection over the rows built from a description holding `p`
exactly once yields exactly the described children of `p`. -/
theorem treeify_filterMap_mem (tid : Int) (p : Nat) :
    ∀ (t : TreeData) (par : Option Nat) (cur lvl : Int),
      (pksT t).Nodup → p ∈ pksT t → par ≠ some p →
    ((treeify tid t par cur lvl).1).filterMap
        (fun n => if n.parent = some p then some n.pk else none) =
      occChildren p t
  | .node pk key cs, par, cur, lvl, hnd, hmem, hpar => by
    simp only [pksT, List.nodup_cons] at hnd
    simp only [pksT, List.mem_cons] at hmem
    have hhead : ¬(par = some p) := hpar
    simp only [treeify, List.filterMap_cons, occChildren]
    rcases hmem with rfl | hmem
    · rw [treeifyL_filterMap_not_mem tid p cs (some p) cur (lvl + 1) hnd.1,
          occL_of_not_mem p cs hnd.1]
      simp [hhead]
    · have hne : pk ≠ p := fun he => hnd.1 (he ▸ hmem)
      rw [treeifyL_filterMap_mem tid p cs (some pk) cur (lvl + 1) hnd.2 hmem
            (fun he => hne (Option.some.inj he)),
          if_neg hne]
      simp [hhead]

/-- Child selection over the rows built from a forest holding `p` exactly
once. -/
theorem treeifyL_filterMap_mem (tid : Int) (p : Nat) :
    ∀ (cs : List TreeData) (par : Option Nat) (cur lvl : Int),
      (pksL cs).Nodup → p ∈ pksL cs → par ≠ some p →
    ((treeifyL tid cs par cur lvl).1).filterMap
        (fun n => if n.parent = some p then some n.pk else none) =
      occL p cs
  | [], _, _, _, _, hmem, _ => by cases hmem
  | c :: cs, par, cur, lvl, hnd, hmem, hpar => by
    rw [pksL, List.nodup_append] at hnd
    simp only [pksL, List.mem_append] at hmem
    simp only [treeifyL, List.filterMap_append, occL]
    rcases hmem with hm | hm
    · have hnotl : p ∉ pksL cs := fun hin => hnd.2.2 hm hin
      rw [treeify_filterMap_mem tid p c par (cur + 1) lvl hnd.1 hm hpar,
          treeifyL_filterMap_not_mem tid p cs par (treeify tid c par (cur + 1) lvl).2 lvl hnotl,
          occL_of_not_mem p cs hnotl, if_neg hpar]
    · have hnotT : p ∉ pksT c := fun hin => hnd.2.2 hin hm
      rw [treeify_filterMap_not_mem tid p c par (cur + 1) lvl hnotT,
          treeifyL_filterMap_mem tid p cs par (treeify tid c par (cur + 1) lvl).2 lvl
            hnd.2.1 hm hpar,
          occChildren_of_not_mem p c hnotT, if_neg hpar]
end

mutual
/-- A child map that returns each description pk's occurrence children
agrees with the description, provided its pks are distinct. -/
theorem cmAgrees_of_occ (cm : Nat → List Nat) :
    ∀ (t : TreeData), (pksT t).Nodup → (∀ q ∈ pksT t, cm q = occChildren q t) →
      cmAgrees cm t
  | .node pk key cs, hnd, hq => by
    simp only [pksT, List.nodup_cons] at hnd
    simp only [cmAgrees]
    constructor
    · have h1 := hq pk (by simp [pksT])
      rw [h1]
      simp only [occChildren, if_pos rfl]
      rw [occL_of_not_mem pk cs hnd.1]
      simp
    · apply cmAgreesL_of_occ cm cs hnd.2
      intro q hqmem
      have hne : pk ≠ q := fun he => hnd.1 (he ▸ hqmem)
      have h2 := hq q (by simp [pksT, hqmem])
      rw [h2]
      simp only [occChildren]
      rw [if_neg hne]
      rfl

/-- `cmAgrees_of_occ` over a forest. -/
theorem cmAgreesL_of_occ (cm : Nat → List Nat) :
    ∀ (cs : List TreeData), (pksL cs).Nodup → (∀ q ∈ pksL cs, cm q = occL q cs) →
      cmAgreesL cm cs
  | [], _, _ => trivial
  | c :: cs, hnd, hq => by
    rw [pksL, List.nodup_append] at hnd
    simp only [cmAgreesL]
    constructor
    · apply cmAgrees_of_occ cm c hnd.1
      intro q hqm
      have hnotl : q ∉ pksL cs := fun hin => hnd.2.2 hqm hin
      have h2 := hq q (by simp [pksL, hqm])
      rw [h2]
      simp only [occL]
      rw [occL_of_not_mem q cs hnotl]
      simp
    · apply cmAgreesL_of_occ cm cs hnd.2.1
      intro q hqm
      have hnotT : q ∉ pksT c := fun hin => hnd.2.2 hin hqm
      have h2 := hq q (by simp [pksL, hqm])
      rw [h2]
      simp only [occL]
      rw [occChildren_of_not_mem q c hnotT]
      simp
end

mutual
/-- The rebuild walk, driven by an agreeing child map with enough fuel,
recomputes exactly the builder's cursors: it succeeds, returns the cursor
one past the builder's, and emits (up to order) the positional projection
of every built row. -/
theorem helperPk_simulates (tid : Int) :
    ∀ (t : TreeData) (cm : Nat → List Nat) (fuel : Nat) (par : Option Nat) (cur lvl : Int),
      cmAgrees cm t → depthT t ≤ fuel →
      ∃ as, helperPk cm fuel (rootPk t) cur lvl =
          .ok (as, (treeify tid t par cur lvl).2 + 1) ∧
        as.Perm (((treeify tid t par cur lvl).1).map projOf)
  | .node pk key cs, cm, fuel, par, cur, lvl, hcm, hd => by
    cases fuel with
    | zero => simp [depthT] at hd
    | succ f =>
      simp only [cmAgrees] at hcm
      simp only [depthT] at hd
      obtain ⟨as, h1, h2⟩ := helperListF_simulates tid cs cm f (some pk) cur (lvl + 1)
        hcm.2 (by omega)
      refine ⟨as ++ [⟨pk, cur, (treeifyL tid cs (some pk) cur (lvl + 1)).2 + 1, lvl⟩], ?_, ?_⟩
      · simp only [helperPk, rootPk, hcm.1, h1, treeify]
      · simp only [treeify, List.map_cons]
        refine (List.perm_append_singleton _ _).trans (List.Perm.cons _ h2)

/-- The walk over a forest of described children. -/
theorem helperListF_simulates (tid : Int) :
    ∀ (cs : List TreeData) (cm : Nat → List Nat) (fuel : Nat) (par : Option Nat) (cur lvl : Int),
      cmAgreesL cm cs → depthL cs ≤ fuel →
      ∃ as, helperListF (helperPk cm fuel) (cs.map rootPk) (cur + 1) lvl =
          .ok (as, (treeifyL tid cs par cur lvl).2 + 1) ∧
        as.Perm (((treeifyL tid cs par cur lvl).1).map projOf)
  | [], cm, fuel, par, cur, lvl, _, _ => ⟨[], rfl, List.Perm.refl _⟩
  | c :: cs, cm, fuel, par, cur, lvl, hcm, hd => by
    simp only [cmAgreesL] at hcm
    simp only [depthL] at hd
    obtain ⟨as₁, h1, h2⟩ := helperPk_simulates tid c cm fuel par (cur + 1) lvl
      hcm.1 (by omega)
    obtain ⟨as₂, h3, h4⟩ := helperListF_simulates tid cs cm fuel par
      (treeify tid c par (cur + 1) lvl).2 lvl hcm.2 (by omega)
    refine ⟨as₁ ++ as₂, ?_, ?_⟩
    · simp only [List.map_cons, helperListF, h1, h3, treeifyL]
    · simp only [treeifyL, List.map_append]
      exact List.Perm.append h2 h4
end

/-- `find?` of a key that occurs exactly once finds that very entry. -/
theorem find_of_mem_unique (x : PosAssign × Int) :
    ∀ (l : List (PosAssign × Int)), x ∈ l → ((l.map (fun y => y.1.pk)).Nodup) →
      l.find? (fun y => y.1.pk = x.1.pk) = some x
  | [], hx, _ => by cases hx
  | a :: l, hx, hnd => by
    simp only [List.map_cons, List.nodup_cons] at hnd
    rcases List.mem_cons.mp hx with rfl | hx2
    · simp [List.find?]
    · have hne : ¬(a.1.pk = x.1.pk) := fun he => hnd.1
        (he ▸ List.mem_map_of_mem (fun y => y.1.pk) hx2)
      simp only [List.find?]
      rw [show decide (a.1.pk = x.1.pk) = false by simp [hne]]
      exact find_of_mem_unique x l hx2 hnd.2

/-- C8: building a nested description with `build_tree_nodes` (no anchor)
and then running the full rebuild driven only by the produced parent
pointers leaves every produced row exactly as the builder wrote it — in
particular the same `left`, `right` and `level` — whenever the description's
pks are distinct. -/
theorem build_then_rebuild (data : TreeData) (gen : Nat → Int)
    (hnd : (pksT data).Nodup) :
    rebuild false true gen none
        (build_tree_nodes ⟨[], false, []⟩ data none none "last-child" true 0).2 =
      .ok (build_tree_nodes ⟨[], false, []⟩ data none none "last-child" true 0).2 := by
  have hstack : (build_tree_nodes ⟨[], false, []⟩ data none none "last-child" true 0).2 =
      (treeify 1 data none 1 0).1 := rfl
  rw [hstack]
  obtain ⟨pk, key, cs⟩ := data
  have hstep : treeify 1 (.node pk key cs) none 1 0 =
      ((⟨pk, none, 1, (treeifyL 1 cs (some pk) 1 1).2 + 1, 0, 1, key⟩ : Node) ::
        (treeifyL 1 cs (some pk) 1 1).1,
       (treeifyL 1 cs (some pk) 1 1).2 + 1) := rfl
  set head : Node := ⟨pk, none, 1, (treeifyL 1 cs (some pk) 1 1).2 + 1, 0, 1, key⟩ with hhead
  set sL : List Node := (treeifyL 1 cs (some pk) 1 1).1 with hsL
  set stack : List Node := (treeify 1 (.node pk key cs) none 1 0).1 with hstackdef
  have hcons : stack = head :: sL := by rw [hstackdef, hstep]
  -- the ordered roots of the built rows are the built root alone
  have hfilter : stack.filter (fun n => is_root_node n) = [head] := by
    rw [hcons, List.filter_cons, if_pos (show (is_root_node head : Bool) = true from rfl)]
    congr 1
    rw [List.filter_eq_nil]
    intro n hn
    have hps := treeifyL_parent_isSome 1 cs pk 1 1 n (hsL ▸ hn)
    unfold is_root_node
    cases hq : n.parent
    · rw [hq] at hps
      simp at hps
    · simp
  have hparents : getParents false none stack = [head] := by
    simp only [getParents, querysetOrder, Bool.false_eq_true, if_false, hfilter]
    rfl
  -- the child map of the built rows agrees with the description
  have hchild : ∀ p, getChildrenMap false none stack p =
      stack.filterMap (fun n => if n.parent = some p then some n.pk else none) := by
    intro p
    simp only [getChildrenMap, querysetOrder, Bool.false_eq_true, if_false]
    have hpw : stack.Pairwise (fun a b => a.lft < b.lft) := by
      rw [hstackdef]
      exact treeify_pairwise 1 (.node pk key cs) none 1 0
    have htid : ∀ n ∈ stack, n.tree_id = 1 := by
      rw [hstackdef]
      exact treeify_tree_id 1 (.node pk key cs) none 1 0
    have hpw2 : (stack.filter (fun n => is_child_node n)).Pairwise
        (fun a b => baseLe a b = true) := by
      have hsub := List.filter_sublist (l := stack) (p := fun n => is_child_node n)
      refine List.Pairwise.imp_of_mem ?_ (hpw.sublist hsub)
      intro a b ha hb hlt
      have hta := htid a (hsub.mem ha)
      have htb := htid b (hsub.mem hb)
      simp only [baseLe, hta, htb, decide_eq_true_eq]
      right
      exact ⟨trivial, le_of_lt hlt⟩
    rw [sortNodes_of_pairwise baseLe _ hpw2, filterMap_filter_child]
  have hagrees : cmAgrees (getChildrenMap false none stack) (.node pk key cs) := by
    apply cmAgrees_of_occ _ _ hnd
    intro q hq
    rw [hchild q, hstackdef]
    exact treeify_filterMap_mem 1 q (.node pk key cs) none 1 0 hnd hq (by simp)
  -- the walk reproduces the builder's numbers
  have hfuel : depthT (.node pk key cs) ≤ stack.length + 1 := by
    have := depthT_le_length 1 (.node pk key cs) none 1 0
    rw [← hstackdef] at this
    omega
  obtain ⟨as, hwalk, hperm⟩ := helperPk_simulates 1 (.node pk key cs)
    (getChildrenMap false none stack) (stack.length + 1) none 1 0 hagrees hfuel
  -- assemble the rebuild
  have hpks : stack.map (fun n => n.pk) = pksT (.node pk key cs) := by
    rw [hstackdef]
    exact treeify_pks 1 (.node pk key cs) none 1 0
  have hndA : (as.map (fun a => a.pk)).Nodup := by
    have h1 : List.Perm (as.map (fun a => a.pk)) ((stack.map projOf).map (fun a => a.pk)) :=
      hperm.map (fun a => a.pk)
    have h2 : (stack.map projOf).map (fun a => a.pk) = stack.map (fun n => n.pk) := by
      rw [List.map_map]
      rfl
    rw [h2, hpks] at h1
    exact h1.nodup_iff.mpr hnd
  have happly : ∀ t : Int, t = 1 →
      applyAssigns (as.map (fun a => (a, t)) ++ []) stack = stack := by
    intro t ht
    apply map_noop_mem
    intro n hn
    have hmem0 : projOf n ∈ List.map projOf (treeify 1 (TreeData.node pk key cs) none 1 0).1 :=
      List.mem_map_of_mem projOf (hstackdef ▸ hn)
    have hmemA : (projOf n, t) ∈ (as.map (fun a => (a, t)) ++ []) := by
      rw [List.append_nil]
      exact List.mem_map_of_mem (fun a => (a, t)) (hperm.mem_iff.mpr hmem0)
    have hndA2 : ((as.map (fun a => (a, t)) ++ []).map (fun y : PosAssign × Int => y.1.pk)).Nodup := by
      rw [List.append_nil, List.map_map]
      exact hndA
    have hfind := find_of_mem_unique (projOf n, t) _ hmemA hndA2
    rw [show ((projOf n, t).1.pk) = n.pk from rfl] at hfind
    unfold updFields
    rw [hfind]
    have htid : n.tree_id = 1 :=
      treeify_tree_id 1 (.node pk key cs) none 1 0 n (hstackdef ▸ hn)
    show ({ n with lft := n.lft, rght := n.rght, level := n.level, tree_id := t } : Node) = n
    rw [ht, ← htid]
  simp only [rebuild, hparents]
  rw [show ([head].map (fun n => n.pk)) = [pk] from rfl]
  rw [show rootPk (TreeData.node pk key cs) = pk from rfl] at hwalk
  simp only [rebuildRoots, hwalk]
  rw [happly _ (by simp)]

/-- Witness for C8: a four-node nested description built and then rebuilt
from its parent pointers alone. -/
theorem build_then_rebuild_witness :
    rebuild false true (fun _ => 0) none
        (build_tree_nodes ⟨[], false, []⟩
          (.node 7 0 [.node 8 0 [.node 9 0 []], .node 10 0 []])
          none none "last-child" true 0).2 =
      .ok (build_tree_nodes ⟨[], false, []⟩
          (.node 7 0 [.node 8 0 [.node 9 0 []], .node 10 0 []])
          none none "last-child" true 0).2 :=
  build_then_rebuild (.node 7 0 [.node 8 0 [.node 9 0 []], .node 10 0 []])
    (fun _ => 0) (by decide)

/-! ## Claim C7: the delayed-update scope -/

/-- The tracker records each tree id at most once. -/
theorem track_dirty_nodup (tree_id : Int) (st : MpttState) (h : st.dirty.Nodup) :
    (_mptt_track_tree_modified tree_id st).dirty.Nodup := by
  unfold _mptt_track_tree_modified
  by_cases hc : tree_id ∈ st.dirty
  · simp [hc, h]
  · simp [hc, List.nodup_append, h]

/-- Running a scope body preserves distinctness of the recorded tree ids. -/
theorem runBody_dirty_nodup : ∀ (ops : List TrackOp) (st : MpttState), st.dirty.Nodup →
    ((runBody ops st).1).dirty.Nodup
  | [], _, h => h
  | .space size target tree_id :: ops, st, h => by
    simp only [runBody]
    apply runBody_dirty_nodup
    unfold _manage_space
    by_cases hc : st.tracking = true
    · simp only [hc, if_true]
      exact track_dirty_nodup tree_id st h
    · simp only [hc, if_false]
      exact h
  | .write n :: ops, st, h => by
    simp only [runBody]
    exact runBody_dirty_nodup ops _ h
  | .raiseErr :: _, _, h => h

/-- C7: a delayed-update scope that raises returns the table exactly as the
body left it, with the exception propagated and no rebuild of any kind; a
scope that exits cleanly runs `partial_rebuild` once per distinct recorded
tree id (the record holds each dirty tree exactly once). -/
theorem delay_updates_spec (useKey seq : Bool) (gen : Nat → Int) (ops : List TrackOp)
    (db : List Node) :
    (∀ st', runBody ops ⟨db, true, []⟩ = (st', true) →
       delay_mptt_updates useKey seq gen ops db = (st'.db, some .bodyError)) ∧
    (∀ st', runBody ops ⟨db, true, []⟩ = (st', false) →
       st'.dirty.Nodup ∧
       delay_mptt_updates useKey seq gen ops db =
         applyRebuilds useKey seq gen st'.dirty st'.db) := by
  constructor
  · intro st' h
    simp only [delay_mptt_updates, h, reduceIte]
  · intro st' h
    refine ⟨?_, ?_⟩
    · have hnd := runBody_dirty_nodup ops ⟨db, true, []⟩ List.nodup_nil
      rw [h] at hnd
      exact hnd
    · simp [delay_mptt_updates, h]

/-- Witness for C7: a raising scope keeps the body's table and rebuilds
nothing; a clean scope rebuilds once per distinct recorded tree. -/
theorem delay_updates_spec_witness :
    delay_mptt_updates true true (fun _ => 0) [.space 2 0 5, .raiseErr] [] =
      ([], some .bodyError) ∧
    delay_mptt_updates true true (fun _ => 0)
      [.space 2 0 5, .space 1 0 5, .space 1 0 7] [] = ([], none) := by
  constructor
  · exact (delay_updates_spec true true (fun _ => 0) [.space 2 0 5, .raiseErr] []).1
      ⟨[], true, [5]⟩ rfl
  · exact ((delay_updates_spec true true (fun _ => 0)
      [.space 2 0 5, .space 1 0 5, .space 1 0 7] []).2 ⟨[], true, [5, 7]⟩ rfl).2.trans rfl

end Mptt
